import Mathlib

/-!
Shallow embedding of retwist's bounded-concurrency combinator
(src/retwist/util/limited_deferred_list.py, class LimitedDeferredList).

The Python class subclasses twisted's Deferred.  Its mutable state is:
  - self.deferred_factories : a collections.deque of (index, factory) pairs
    built by enumerate(deferred_factories); items are consumed with .pop(),
    which removes from the RIGHT end of the deque;
  - self.results : a list of result slots, initially all None;
  - self.counter : the number of Deferreds started and not yet called back;
  - the inherited Deferred state: self.called plus the settled value.

We embed this state as RunState.  A task (the Deferred made by one factory)
is described by a TaskSpec: it either settles asynchronously later with a
given outcome, settles synchronously while the factory call is still on the
stack, or the factory itself raises an exception instead of returning a
Deferred.  The environment's nondeterministic choice of completion order is
a list of task indices (events); fireEvent delivers the outcome of one
in-flight task, exactly as the reactor would.
-/

namespace Retwist

/-- Outcome a task eventually produces: a success value or a failure reason. -/
inductive TaskOutcome (α ε : Type) where
  | ok (v : α)
  | err (e : ε)
  deriving DecidableEq

/-- How one factory behaves when invoked by __schedule_deferred: it returns a
Deferred that settles later (async), returns a Deferred that has already
settled (sync, as in tests/test_limited_deferred_list.py's synchronous
Deferreds), or raises an exception instead of returning. -/
inductive TaskSpec (α ε : Type) where
  | async (out : TaskOutcome α ε)
  | sync (out : TaskOutcome α ε)
  | raises (e : ε)
  deriving DecidableEq

/-- The settled value of the overall LimitedDeferredList: callback with the
results list, or errback with FirstError(failure, index) - modelled as the
failing task's original index paired with the underlying reason. -/
inductive Settlement (α ε : Type) where
  | success (rs : List (Option α))
  | failure (index : Nat) (e : ε)
  deriving DecidableEq

/-- The state of one LimitedDeferredList instance plus the environment's view
of which started tasks have not yet completed (inFlight).  crashed records
that twisted's Deferred.callback was invoked on an already-settled Deferred
(AlreadyCalledError); the settled value itself is never overwritten. -/
structure RunState (α ε : Type) where
  pending : List (Nat × TaskSpec α ε)
  results : List (Option α)
  counter : Int
  settled : Option (Settlement α ε)
  inFlight : List (Nat × TaskOutcome α ε)
  crashed : Bool
  deriving DecidableEq

/-- Result of __schedule_deferred: the returned Bool plus the state, or an
exception escaping the factory call together with the state at that point. -/
inductive SchedResult (α ε : Type) where
  | ok (scheduled : Bool) (s : RunState α ε)
  | raised (e : ε) (s : RunState α ε)
  deriving DecidableEq

/-- Result of __deferred_callback: normal return, or an exception escaping it
(to be converted to a Failure on the task's own callback chain). -/
inductive CbResult (α ε : Type) where
  | done (s : RunState α ε)
  | raised (e : ε) (s : RunState α ε)
  deriving DecidableEq

variable {α ε : Type}

/-- State carried by either constructor of a SchedResult. -/
def SchedResult.state : SchedResult α ε → RunState α ε
  | .ok _ s => s
  | .raised _ s => s

/-- State carried by either constructor of a CbResult. -/
def CbResult.state : CbResult α ε → RunState α ε
  | .done s => s
  | .raised _ s => s

/-- Pairs each factory with its index, as enumerate(deferred_factories) does;
the head of the list is the left (front) end of the deque. -/
def enumTasks : Nat → List (TaskSpec α ε) → List (Nat × TaskSpec α ε)
  | _, [] => []
  | k, t :: ts => (k, t) :: enumTasks (k + 1) ts

/-- Invoking self.callback(self.results) on the overall Deferred: settle with
the results list, or record an AlreadyCalledError if already settled. -/
def fireOverallCallback (s : RunState α ε) : RunState α ε :=
  match s.settled with
  | none => { s with settled := some (.success s.results) }
  | some _ => { s with crashed := true }

/-- Body of __deferred_errback: errback the overall Deferred with
FirstError(failure, index) unless self.called is already true. -/
def deferredErrback (s : RunState α ε) (e : ε) (index : Nat) : RunState α ε :=
  if s.settled.isSome then s
  else { s with settled := some (.failure index e) }

/-- First two statements of __deferred_callback: self.counter -= 1 and
self.results[index] = result. -/
def cbEnter (s : RunState α ε) (v : α) (index : Nat) : RunState α ε :=
  { s with counter := s.counter - 1, results := s.results.set index (some v) }

/-- Tail of __deferred_callback: inspect what __schedule_deferred returned and
fire the overall callback if nothing was scheduled and the counter is zero.
An exception from the nested factory call keeps propagating. -/
def runCbStep (r : SchedResult α ε) : CbResult α ε :=
  match r with
  | .raised e s => .raised e s
  | .ok true s => .done s
  | .ok false s => if s.counter = 0 then .done (fireOverallCallback s) else .done s

/-- A CbResult as seen from the deferred machinery that invoked the callback:
twisted catches an exception raised inside a callback and passes it on as a
Failure, so __deferred_errback (added right after) fires with it. -/
def handleCbResult (r : CbResult α ε) (index : Nat) : RunState α ε :=
  match r with
  | .done s => s
  | .raised e s => deferredErrback s e index

/-- Body of __schedule_deferred, parametrised by the recursive call made when
a synchronously settled task runs __deferred_callback while the scheduling
call is still on the stack.  If the deque is nonempty: increment the
counter, pop the (index, factory) pair from the RIGHT end, invoke the
factory and attach __deferred_callback / __deferred_errback.  An async task
joins the in-flight set; a synchronously settled task runs its callback or
errback immediately; a raising factory propagates the exception. -/
def schedStep (recurse : RunState α ε → SchedResult α ε) (s : RunState α ε) :
    SchedResult α ε :=
  match s.pending.getLast? with
  | none => .ok false s
  | some (index, spec) =>
    let s1 : RunState α ε :=
      { s with pending := s.pending.dropLast, counter := s.counter + 1 }
    match spec with
    | .async out => .ok true { s1 with inFlight := (index, out) :: s1.inFlight }
    | .sync (.ok v) =>
      .ok true (handleCbResult (runCbStep (recurse (cbEnter s1 v index))) index)
    | .sync (.err e) => .ok true (deferredErrback s1 e index)
    | .raises e => .raised e s1

/-- The full __schedule_deferred.  fuel bounds the recursion through chains of
synchronously settling tasks; every caller supplies at least the pending
length, which suffices because each nested call first pops one factory, so
the zero-fuel base case (which skips the nested schedule) is dead code. -/
def schedFuel : Nat → RunState α ε → SchedResult α ε
  | 0, s => schedStep (fun t => .ok true t) s
  | fuel + 1, s => schedStep (schedFuel fuel) s

/-- The outcome of the in-flight task with the given index, if any. -/
def findOutcome : List (Nat × TaskOutcome α ε) → Nat → Option (TaskOutcome α ε)
  | [], _ => none
  | (j, out) :: rest, i => if j = i then some out else findOutcome rest i

/-- Remove the first in-flight entry with the given index. -/
def removeTask : List (Nat × TaskOutcome α ε) → Nat → List (Nat × TaskOutcome α ε)
  | [], _ => []
  | (j, out) :: rest, i => if j = i then rest else (j, out) :: removeTask rest i

/-- The reactor delivers the outcome of in-flight task i: its Deferred fires,
running __deferred_callback (success) or __deferred_errback (failure).  An
exception escaping __deferred_callback is caught by the task's own chain
and handed to __deferred_errback with the same index. -/
def fireEvent (s : RunState α ε) (i : Nat) : RunState α ε :=
  match findOutcome s.inFlight i with
  | none => s
  | some out =>
    let s1 : RunState α ε := { s with inFlight := removeTask s.inFlight i }
    match out with
    | .ok v => handleCbResult (runCbStep (schedFuel s1.pending.length (cbEnter s1 v i))) i
    | .err e => deferredErrback s1 e i

/-- State right after Deferred.__init__ and the bookkeeping assignments in
LimitedDeferredList.__init__, before the scheduling loop runs. -/
def initState (factories : List (TaskSpec α ε)) : RunState α ε :=
  { pending := enumTasks 0 factories
    results := factories.map fun _ => none
    counter := 0
    settled := none
    inFlight := []
    crashed := false }

/-- The for-loop in __init__: call __schedule_deferred k times, ignoring its
return value; an exception raised by a factory escapes the constructor. -/
def constructLoop : Nat → RunState α ε → Except (ε × RunState α ε) (RunState α ε)
  | 0, s => .ok s
  | k + 1, s =>
    match schedFuel s.pending.length s with
    | .ok _ s1 => constructLoop k s1
    | .raised e s1 => .error (e, s1)

/-- LimitedDeferredList(deferred_factories, max_concurrent): range(n) for a
non-positive n is empty, so a non-positive limit simply runs zero loop
iterations. -/
def construct (factories : List (TaskSpec α ε)) (maxConcurrent : Int) :
    Except (ε × RunState α ε) (RunState α ε) :=
  constructLoop maxConcurrent.toNat (initState factories)

/-- Deliver a sequence of completion events, one task at a time. -/
def runEvents (s : RunState α ε) (events : List Nat) : RunState α ε :=
  events.foldl fireEvent s

/-- A whole run: construct, then deliver completion events in the given order. -/
def run (factories : List (TaskSpec α ε)) (maxConcurrent : Int)
    (events : List Nat) : Except (ε × RunState α ε) (RunState α ε) :=
  (construct factories maxConcurrent).map fun s => runEvents s events

/-- The state carried by a run result, whether or not a factory raised. -/
def stateOf (r : Except (ε × RunState α ε) (RunState α ε)) : RunState α ε :=
  match r with
  | .ok s => s
  | .error (_, s) => s

/-- The exception that escaped the constructor, if any. -/
def raisedOf (r : Except (ε × RunState α ε) (RunState α ε)) : Option ε :=
  match r with
  | .ok _ => none
  | .error (e, _) => some e

/-- Factories that each return a Deferred later resolving with a given value. -/
def asyncOk (vals : List α) : List (TaskSpec α ε) :=
  vals.map fun v => TaskSpec.async (.ok v)

/-- Factories that each return an already-called-back Deferred, as in the
test_synchronous_deferreds test. -/
def syncOk (vals : List α) : List (TaskSpec α ε) :=
  vals.map fun v => TaskSpec.sync (.ok v)

/-- A concrete three-factory input whose last task fails: tasks 2 and 1 are
started first (the deque is popped from the right), task 2 errbacks. -/
def exampleFailing : List (TaskSpec Nat Nat) :=
  [.async (.ok 10), .async (.ok 20), .async (.err 7)]

/-- Counter bookkeeping invariant of every reachable state: the counter is at
least the number of in-flight tasks (failed and raising starts are counted
but never decremented), strictly greater once the overall result has failed,
a successful settlement happens only when everything is finished, and
Deferred.callback is never invoked twice (no AlreadyCalledError). -/
def GoodC (s : RunState α ε) : Prop :=
  ((s.inFlight.length : Int) ≤ s.counter) ∧
  (∀ i e, s.settled = some (.failure i e) → (s.inFlight.length : Int) + 1 ≤ s.counter) ∧
  (∀ rs, s.settled = some (.success rs) →
    s.inFlight = [] ∧ s.pending = [] ∧ s.counter = 0) ∧
  s.crashed = false

/-- State seen by __deferred_callback just before it decrements the counter:
the completing task has already left the in-flight set, so the counter
exceeds it by one (by two if the overall result has already failed), and a
successful settlement is impossible at this point. -/
def PreCb (s : RunState α ε) : Prop :=
  ((s.inFlight.length : Int) + 1 ≤ s.counter) ∧
  (∀ i e, s.settled = some (.failure i e) → (s.inFlight.length : Int) + 2 ≤ s.counter) ∧
  (∀ rs, s.settled ≠ some (.success rs)) ∧
  s.crashed = false

/-- Full functional invariant for a run whose factories are asyncOk vals: the
unscheduled queue is an initial segment of the indexed input (scheduling
consumes it from the right end), every in-flight task carries its input
index and value, the counter equals the in-flight count, each result slot
is filled with the matching input value exactly when its task has started
and finished, and the overall result settles exactly when everything is
finished (so never for an empty input). -/
structure InvOk (vals : List α) (s : RunState α ε) : Prop where
  hpend : ∃ k, k ≤ vals.length ∧ s.pending = enumTasks 0 ((asyncOk vals).take k)
  hflight : ∀ p ∈ s.inFlight,
    s.pending.length ≤ p.1 ∧ vals[p.1]?.map TaskOutcome.ok = some p.2
  hnodup : (s.inFlight.map Prod.fst).Nodup
  hcounter : s.counter = s.inFlight.length
  hres : ∀ i, s.results[i]? = vals[i]?.map fun v =>
    if s.pending.length ≤ i ∧ ¬ i ∈ s.inFlight.map Prod.fst then some v else none
  hsettle : s.settled =
    if s.pending.length = 0 ∧ s.inFlight.length = 0 ∧ vals.length ≠ 0 then
      some (.success (vals.map some))
    else none
  hcrash : s.crashed = false

end Retwist

namespace Retwist

variable {α ε : Type}

@[simp]
theorem SchedResult.state_ok (b : Bool) (s : RunState α ε) :
    (SchedResult.ok b s).state = s := rfl

@[simp]
theorem SchedResult.state_raised (e : ε) (s : RunState α ε) :
    (SchedResult.raised e s).state = s := rfl

@[simp]
theorem CbResult.state_done (s : RunState α ε) : (CbResult.done s).state = s := rfl

@[simp]
theorem CbResult.state_raised_eq (e : ε) (s : RunState α ε) :
    (CbResult.raised e s).state = s := rfl

theorem schedStep_eq_none (recurse : RunState α ε → SchedResult α ε)
    (s : RunState α ε) (h : s.pending.getLast? = none) :
    schedStep recurse s = .ok false s := by
  unfold schedStep
  rw [h]

theorem schedStep_eq_async (recurse : RunState α ε → SchedResult α ε)
    (s : RunState α ε) (i : Nat) (out : TaskOutcome α ε)
    (h : s.pending.getLast? = some (i, .async out)) :
    schedStep recurse s = .ok true
      { s with pending := s.pending.dropLast, counter := s.counter + 1,
               inFlight := (i, out) :: s.inFlight } := by
  unfold schedStep
  rw [h]

theorem schedStep_eq_sync_ok (recurse : RunState α ε → SchedResult α ε)
    (s : RunState α ε) (i : Nat) (v : α)
    (h : s.pending.getLast? = some (i, .sync (.ok v))) :
    schedStep recurse s = .ok true (handleCbResult (runCbStep (recurse
      (cbEnter { s with pending := s.pending.dropLast, counter := s.counter + 1 } v i))) i) := by
  unfold schedStep
  rw [h]

theorem schedStep_eq_sync_err (recurse : RunState α ε → SchedResult α ε)
    (s : RunState α ε) (i : Nat) (e : ε)
    (h : s.pending.getLast? = some (i, .sync (.err e))) :
    schedStep recurse s = .ok true (deferredErrback
      { s with pending := s.pending.dropLast, counter := s.counter + 1 } e i) := by
  unfold schedStep
  rw [h]

theorem schedStep_eq_raises (recurse : RunState α ε → SchedResult α ε)
    (s : RunState α ε) (i : Nat) (e : ε)
    (h : s.pending.getLast? = some (i, .raises e)) :
    schedStep recurse s = .raised e
      { s with pending := s.pending.dropLast, counter := s.counter + 1 } := by
  unfold schedStep
  rw [h]

theorem schedFuel_zero (s : RunState α ε) :
    schedFuel 0 s = schedStep (fun t => .ok true t) s := rfl

theorem schedFuel_succ (fuel : Nat) (s : RunState α ε) :
    schedFuel (fuel + 1) s = schedStep (schedFuel fuel) s := rfl

theorem schedStep_of_pending_nil (recurse : RunState α ε → SchedResult α ε)
    (s : RunState α ε) (h : s.pending = []) : schedStep recurse s = .ok false s :=
  schedStep_eq_none recurse s (by rw [h]; rfl)

theorem schedFuel_of_pending_nil (fuel : Nat) (s : RunState α ε)
    (h : s.pending = []) : schedFuel fuel s = .ok false s := by
  cases fuel with
  | zero => rw [schedFuel_zero, schedStep_of_pending_nil _ _ h]
  | succ fuel => rw [schedFuel_succ, schedStep_of_pending_nil _ _ h]

theorem constructLoop_of_pending_nil (s : RunState α ε) (h : s.pending = []) :
    ∀ k, constructLoop k s = .ok s := by
  intro k
  induction k with
  | zero => rfl
  | succ k ih => simp [constructLoop, schedFuel_of_pending_nil _ _ h, ih]

theorem fireEvent_of_inFlight_nil (s : RunState α ε) (i : Nat)
    (h : s.inFlight = []) : fireEvent s i = s := by
  simp [fireEvent, h, findOutcome]

theorem runEvents_of_inFlight_nil (s : RunState α ε) (events : List Nat)
    (h : s.inFlight = []) : runEvents s events = s := by
  induction events with
  | nil => rfl
  | cons e es ih =>
    show runEvents (fireEvent s e) es = s
    rw [fireEvent_of_inFlight_nil s e h, ih]

end Retwist

namespace Retwist

variable {α ε : Type}

theorem fireOverallCallback_settled_of_some (s : RunState α ε)
    (x : Settlement α ε) (h : s.settled = some x) :
    (fireOverallCallback s).settled = some x := by
  simp [fireOverallCallback, h]

theorem deferredErrback_settled_of_some (s : RunState α ε) (e : ε) (i : Nat)
    (x : Settlement α ε) (h : s.settled = some x) :
    (deferredErrback s e i).settled = some x := by
  simp [deferredErrback, h]

theorem handleCb_runCb_settled_of_some (r : SchedResult α ε) (i : Nat)
    (x : Settlement α ε) (h : r.state.settled = some x) :
    (handleCbResult (runCbStep r) i).settled = some x := by
  cases r with
  | raised e s2 =>
    exact deferredErrback_settled_of_some s2 e i x h
  | ok b s2 =>
    cases b with
    | true => exact h
    | false =>
      by_cases hc : s2.counter = 0
      · simp only [runCbStep, hc, if_pos, handleCbResult]
        exact fireOverallCallback_settled_of_some s2 x h
      · simp only [runCbStep, if_neg hc, handleCbResult]
        exact h

theorem schedStep_settled_of_some (recurse : RunState α ε → SchedResult α ε)
    (hrec : ∀ t x, t.settled = some x → ((recurse t).state).settled = some x)
    (s : RunState α ε) (x : Settlement α ε) (h : s.settled = some x) :
    ((schedStep recurse s).state).settled = some x := by
  cases hp : s.pending.getLast? with
  | none => rw [schedStep_eq_none recurse s hp]; exact h
  | some p =>
    obtain ⟨i, spec⟩ := p
    cases spec with
    | async out => rw [schedStep_eq_async recurse s i out hp]; exact h
    | sync out =>
      cases out with
      | ok v =>
        rw [schedStep_eq_sync_ok recurse s i v hp]
        exact handleCb_runCb_settled_of_some _ i x (hrec _ x h)
      | err e =>
        rw [schedStep_eq_sync_err recurse s i e hp]
        exact deferredErrback_settled_of_some _ e i x h
    | raises e => rw [schedStep_eq_raises recurse s i e hp]; exact h

theorem schedFuel_settled_of_some (fuel : Nat) (s : RunState α ε)
    (x : Settlement α ε) (h : s.settled = some x) :
    ((schedFuel fuel s).state).settled = some x := by
  induction fuel generalizing s x with
  | zero =>
    rw [schedFuel_zero]
    exact schedStep_settled_of_some (fun t => .ok true t) (fun t y hy => hy) s x h
  | succ fuel ih =>
    rw [schedFuel_succ]
    exact schedStep_settled_of_some (schedFuel fuel) (fun t y hy => ih t y hy) s x h

theorem fireEvent_settled_of_some (s : RunState α ε) (i : Nat)
    (x : Settlement α ε) (h : s.settled = some x) :
    (fireEvent s i).settled = some x := by
  unfold fireEvent
  cases hf : findOutcome s.inFlight i with
  | none => exact h
  | some out =>
    cases out with
    | ok v =>
      exact handleCb_runCb_settled_of_some _ i x (schedFuel_settled_of_some _ _ x h)
    | err e => exact deferredErrback_settled_of_some _ e i x h

theorem runEvents_settled_of_some (s : RunState α ε) (events : List Nat)
    (x : Settlement α ε) (h : s.settled = some x) :
    (runEvents s events).settled = some x := by
  induction events generalizing s with
  | nil => exact h
  | cons e es ih =>
    show (runEvents (fireEvent s e) es).settled = some x
    exact ih _ (fireEvent_settled_of_some s e x h)

end Retwist

namespace Retwist

variable {α ε : Type}

/-- C3: the spec promises that an empty factory sequence resolves immediately
with an empty ordered result collection. The code never settles: the
constructor loop only ever calls __schedule_deferred, which does nothing on
an empty deque, and self.callback is only reachable from a task completing,
of which there are none. Whatever the limit and however long we wait (any
event sequence), the overall Deferred stays unsettled - a hang, since the
class is documented to behave like DeferredList, which fires [] at once. -/
theorem c3_empty_input_never_settles (limit : Int) (events : List Nat) :
    (run ([] : List (TaskSpec α ε)) limit events).map RunState.settled =
      Except.ok none := by
  have h0 : (initState ([] : List (TaskSpec α ε))).pending = [] := rfl
  have h1 : construct ([] : List (TaskSpec α ε)) limit = .ok (initState []) :=
    constructLoop_of_pending_nil _ h0 _
  rw [run, h1]
  show Except.ok ((runEvents (initState []) events).settled) = Except.ok none
  rw [runEvents_of_inFlight_nil _ events rfl]
  rfl

/-- C6 counterexample: constructing with max_concurrent = 0 or -3 raises no
argument error at all - range(n) is simply empty for n <= 0 - and the
instance is returned with nothing started and nothing settled. -/
theorem c6_no_error_reported :
    construct ([TaskSpec.async (.ok 5)] : List (TaskSpec Nat Nat)) 0 =
      .ok (initState [TaskSpec.async (.ok 5)]) ∧
    construct ([TaskSpec.async (.ok 5)] : List (TaskSpec Nat Nat)) (-3) =
      .ok (initState [TaskSpec.async (.ok 5)]) ∧
    (initState ([TaskSpec.async (.ok 5)] : List (TaskSpec Nat Nat))).inFlight = [] ∧
    (initState ([TaskSpec.async (.ok 5)] : List (TaskSpec Nat Nat))).settled = none := by
  refine ⟨rfl, rfl, rfl, rfl⟩

/-- C6 amended: a zero or negative max_concurrent is accepted silently; the
constructor runs zero scheduling iterations, so no task ever starts, no
event can ever fire, and the overall result never settles. -/
theorem c6_nonpositive_limit_inert (factories : List (TaskSpec α ε))
    (limit : Int) (events : List Nat) (h : limit ≤ 0) :
    run factories limit events = .ok (initState factories) ∧
    (initState factories).settled = none := by
  have ht : limit.toNat = 0 := by omega
  refine ⟨?_, rfl⟩
  rw [run, construct, ht]
  show Except.ok (runEvents (initState factories) events) = _
  rw [runEvents_of_inFlight_nil _ events rfl]

theorem c6_nonpositive_limit_inert_witness :
    run ([TaskSpec.async (.ok 5)] : List (TaskSpec Nat Nat)) (-2) [0] =
      .ok (initState [TaskSpec.async (.ok 5)]) ∧
    (initState ([TaskSpec.async (.ok 5)] : List (TaskSpec Nat Nat))).settled = none :=
  c6_nonpositive_limit_inert [TaskSpec.async (.ok 5)] (-2) [0] (by decide)

/-- C4 counterexample: with two factories and limit 1, the single task started
by the constructor is the one with index 1 - the deque is popped from the
right end - while factory 0, the lowest remaining index, stays queued.  The
claimed front-of-queue, lowest-index-first order is therefore wrong. -/
theorem c4_first_scheduled_is_last_index :
    (stateOf (construct
      ([TaskSpec.async (.ok 10), TaskSpec.async (.ok 20)] : List (TaskSpec Nat Nat))
      1)).inFlight = [(1, TaskOutcome.ok 20)] ∧
    (stateOf (construct
      ([TaskSpec.async (.ok 10), TaskSpec.async (.ok 20)] : List (TaskSpec Nat Nat))
      1)).pending = [(0, TaskSpec.async (.ok 10))] := by
  refine ⟨rfl, rfl⟩

/-- C5 counterexample: run exampleFailing with limit 2.  The constructor
starts tasks 2 and 1; task 2 fails, settling the overall result with
FirstError index 2.  When task 1 later completes successfully, its
__deferred_callback still calls __schedule_deferred, which pops and starts
the remaining factory 0 - a refill after settlement, contradicting the
claim that none is ever scheduled. -/
theorem c5_refill_after_settlement :
    (stateOf (run exampleFailing 2 [2])).settled =
      some (.failure 2 7) ∧
    (stateOf (run exampleFailing 2 [2])).pending.length = 1 ∧
    (stateOf (run exampleFailing 2 [2, 1])).pending = [] ∧
    (stateOf (run exampleFailing 2 [2, 1])).inFlight.map Prod.fst = [0] := by
  refine ⟨rfl, rfl, rfl, rfl⟩

/-- C5 amended: once the overall result has settled it never changes - later
completions and failures are absorbed without altering it (failures are
dropped by the self.called guard; a late success never reaches an errback
or a second surfaced callback) - but, as the counterexample shows, a late
success completion does still pop and start a remaining factory. -/
theorem c5_settled_never_changes (s : RunState α ε) (events : List Nat)
    (x : Settlement α ε) (h : s.settled = some x) :
    (runEvents s events).settled = some x :=
  runEvents_settled_of_some s events x h

theorem c5_settled_never_changes_witness :
    (runEvents (stateOf (run exampleFailing 2 [2])) [1]).settled =
      some (.failure 2 7) :=
  c5_settled_never_changes (stateOf (run exampleFailing 2 [2])) [1]
    (.failure 2 7) (by decide)

/-- C7: if an in-flight task fails while the overall result is unsettled, the
overall Deferred errbacks at once with FirstError carrying that task's
original index and its failure reason, and no success callback ever runs:
the settled value is this failure, now and after any further events. -/
theorem c7_failure_settles_first_error (s : RunState α ε) (i : Nat) (e : ε)
    (events : List Nat) (hf : findOutcome s.inFlight i = some (.err e))
    (hn : s.settled = none) :
    (fireEvent s i).settled = some (.failure i e) ∧
    (runEvents (fireEvent s i) events).settled = some (.failure i e) := by
  have h1 : (fireEvent s i).settled = some (.failure i e) := by
    unfold fireEvent
    rw [hf]
    show (deferredErrback _ e i).settled = _
    simp [deferredErrback, hn]
  exact ⟨h1, runEvents_settled_of_some _ events _ h1⟩

theorem c7_failure_settles_first_error_witness :
    (fireEvent (stateOf (run exampleFailing 2 [])) 2).settled =
      some (.failure 2 7) ∧
    (runEvents (fireEvent (stateOf (run exampleFailing 2 [])) 2) [1]).settled =
      some (.failure 2 7) :=
  c7_failure_settles_first_error (stateOf (run exampleFailing 2 [])) 2 7 [1]
    (by decide) (by decide)

end Retwist

namespace Retwist

variable {α ε : Type}

theorem schedStep_eq_false (recurse : RunState α ε → SchedResult α ε)
    (s s1 : RunState α ε) (h : schedStep recurse s = .ok false s1) :
    s1 = s ∧ s.pending = [] := by
  cases hp : s.pending.getLast? with
  | none =>
    rw [schedStep_eq_none recurse s hp] at h
    injection h with _ h2
    exact ⟨h2.symm, List.getLast?_eq_none_iff.mp hp⟩
  | some p =>
    obtain ⟨i, spec⟩ := p
    cases spec with
    | async out => rw [schedStep_eq_async recurse s i out hp] at h; simp at h
    | sync out =>
      cases out with
      | ok v => rw [schedStep_eq_sync_ok recurse s i v hp] at h; simp at h
      | err e => rw [schedStep_eq_sync_err recurse s i e hp] at h; simp at h
    | raises e => rw [schedStep_eq_raises recurse s i e hp] at h; simp at h

theorem schedFuel_eq_false (fuel : Nat) (s s1 : RunState α ε)
    (h : schedFuel fuel s = .ok false s1) : s1 = s ∧ s.pending = [] := by
  cases fuel with
  | zero => exact schedStep_eq_false _ s s1 (by rwa [schedFuel_zero] at h)
  | succ fuel => exact schedStep_eq_false _ s s1 (by rwa [schedFuel_succ] at h)

theorem goodC_cbEnter (s : RunState α ε) (v : α) (i : Nat) (h : PreCb s) :
    GoodC (cbEnter s v i) := by
  obtain ⟨h1, h2, h3, h4⟩ := h
  refine ⟨?_, ?_, ?_, h4⟩
  · show (s.inFlight.length : Int) ≤ s.counter - 1
    omega
  · intro j e hj
    have := h2 j e hj
    show (s.inFlight.length : Int) + 1 ≤ s.counter - 1
    omega
  · intro rs hrs
    exact absurd hrs (h3 rs)

theorem handleCb_goodC (r : SchedResult α ε) (i : Nat)
    (hstate : GoodC r.state)
    (hraised : ∀ e s1, r = .raised e s1 → (s1.inFlight.length : Int) + 1 ≤ s1.counter)
    (hfalse : ∀ s1, r = .ok false s1 →
      (∀ rs, s1.settled ≠ some (.success rs)) ∧ s1.pending = []) :
    GoodC (handleCbResult (runCbStep r) i) := by
  cases r with
  | raised e s2 =>
    show GoodC (deferredErrback s2 e i)
    rw [SchedResult.state_raised] at hstate
    obtain ⟨h1, h2, h3, h4⟩ := hstate
    by_cases hs : s2.settled.isSome
    · simpa [deferredErrback, hs] using ⟨h1, h2, h3, h4⟩
    · have hnone : s2.settled = none := Option.not_isSome_iff_eq_none.mp hs
      have hcount := hraised e s2 rfl
      refine ⟨?_, ?_, ?_, ?_⟩ <;> simp [deferredErrback, hs]
      · exact h1
      · exact hcount
      · exact h4
  | ok b s2 =>
    cases b with
    | true => exact hstate
    | false =>
      rw [SchedResult.state_ok] at hstate
      obtain ⟨h1, h2, h3, h4⟩ := hstate
      obtain ⟨hnos, hpnil⟩ := hfalse s2 rfl
      by_cases hc : s2.counter = 0
      · show GoodC (handleCbResult (runCbStep (SchedResult.ok false s2)) i)
        rw [runCbStep, if_pos hc]
        show GoodC (fireOverallCallback s2)
        cases hs : s2.settled with
        | none =>
          have hfl : s2.inFlight = [] := by
            have : (s2.inFlight.length : Int) ≤ 0 := hc ▸ h1
            have : s2.inFlight.length = 0 := by omega
            exact List.length_eq_zero.mp this
          refine ⟨?_, ?_, ?_, ?_⟩ <;> simp [fireOverallCallback, hs]
          · omega
          · exact ⟨hfl, hpnil, hc⟩
          · exact h4
        | some x =>
          cases x with
          | success rs => exact absurd hs (hnos rs)
          | failure j e =>
            have := h2 j e hs
            have : (0 : Int) ≤ s2.inFlight.length := Int.ofNat_nonneg _
            omega
      · show GoodC (handleCbResult (runCbStep (SchedResult.ok false s2)) i)
        rw [runCbStep, if_neg hc]
        exact ⟨h1, h2, h3, h4⟩

end Retwist

namespace Retwist

variable {α ε : Type}

theorem schedStep_goodC (recurse : RunState α ε → SchedResult α ε)
    (hrecGood : ∀ t, GoodC t → GoodC (recurse t).state)
    (hrecRaised : ∀ t e t1, GoodC t → recurse t = .raised e t1 →
      (t1.inFlight.length : Int) + 1 ≤ t1.counter)
    (hrecFalse : ∀ t t1, recurse t = .ok false t1 → t1 = t ∧ t.pending = [])
    (s : RunState α ε) (h : GoodC s) :
    GoodC (schedStep recurse s).state ∧
    (∀ e s1, schedStep recurse s = .raised e s1 →
      (s1.inFlight.length : Int) + 1 ≤ s1.counter) := by
  obtain ⟨h1, h2, h3, h4⟩ := h
  cases hp : s.pending.getLast? with
  | none =>
    rw [schedStep_eq_none recurse s hp]
    exact ⟨⟨h1, h2, h3, h4⟩, fun e s1 heq => by simp at heq⟩
  | some p =>
    obtain ⟨i, spec⟩ := p
    have hne : s.pending ≠ [] := by
      intro hnil
      rw [hnil] at hp
      simp at hp
    have hnosucc : ∀ rs, s.settled ≠ some (.success rs) := by
      intro rs hrs
      exact hne (h3 rs hrs).2.1
    cases spec with
    | async out =>
      rw [schedStep_eq_async recurse s i out hp]
      refine ⟨⟨?_, ?_, ?_, h4⟩, fun e s1 heq => by simp at heq⟩
      · show (((i, out) :: s.inFlight).length : Int) ≤ s.counter + 1
        simp only [List.length_cons]
        push_cast
        omega
      · intro j e hj
        have := h2 j e hj
        show (((i, out) :: s.inFlight).length : Int) + 1 ≤ s.counter + 1
        simp only [List.length_cons]
        push_cast
        omega
      · intro rs hrs
        exact absurd hrs (hnosucc rs)
    | sync out =>
      cases out with
      | ok v =>
        rw [schedStep_eq_sync_ok recurse s i v hp]
        have hpre :
            PreCb { s with pending := s.pending.dropLast, counter := s.counter + 1 } := by
          refine ⟨?_, ?_, ?_, h4⟩
          · show (s.inFlight.length : Int) + 1 ≤ s.counter + 1
            omega
          · intro j e hj
            have := h2 j e hj
            show (s.inFlight.length : Int) + 2 ≤ s.counter + 1
            omega
          · intro rs hrs
            exact absurd hrs (hnosucc rs)
        have hgt := goodC_cbEnter _ v i hpre
        refine ⟨?_, fun e s1 heq => by simp at heq⟩
        show GoodC (handleCbResult (runCbStep (recurse _)) i)
        refine handleCb_goodC _ i (hrecGood _ hgt)
          (fun e t1 heq => hrecRaised _ e t1 hgt heq) ?_
        intro t1 heq
        obtain ⟨rfl, hpnil⟩ := hrecFalse _ t1 heq
        exact ⟨fun rs hrs => hnosucc rs hrs, hpnil⟩
      | err e =>
        rw [schedStep_eq_sync_err recurse s i e hp]
        refine ⟨?_, fun e2 s1 heq => by simp at heq⟩
        show GoodC (deferredErrback _ e i)
        by_cases hs : s.settled.isSome
        · refine ⟨?_, ?_, ?_, ?_⟩ <;> simp only [deferredErrback, hs, if_pos]
          · show (s.inFlight.length : Int) ≤ s.counter + 1
            omega
          · intro j e2 hj
            have := h2 j e2 hj
            show (s.inFlight.length : Int) + 1 ≤ s.counter + 1
            omega
          · intro rs hrs
            exact absurd hrs (hnosucc rs)
          · exact h4
        · refine ⟨?_, ?_, ?_, ?_⟩ <;>
            simp only [deferredErrback, hs, Bool.false_eq_true, if_false, if_neg]
          · show (s.inFlight.length : Int) ≤ s.counter + 1
            omega
          · intro j e2 hj
            show (s.inFlight.length : Int) + 1 ≤ s.counter + 1
            omega
          · intro rs hrs
            simp at hrs
          · exact h4
    | raises e =>
      rw [schedStep_eq_raises recurse s i e hp]
      refine ⟨⟨?_, ?_, ?_, h4⟩, ?_⟩
      · show (s.inFlight.length : Int) ≤ s.counter + 1
        omega
      · intro j e2 hj
        have := h2 j e2 hj
        show (s.inFlight.length : Int) + 1 ≤ s.counter + 1
        omega
      · intro rs hrs
        exact absurd hrs (hnosucc rs)
      · intro e2 s1 heq
        injection heq with he hs1
        rw [← hs1]
        show (s.inFlight.length : Int) + 1 ≤ s.counter + 1
        omega

theorem schedFuel_goodC (fuel : Nat) (s : RunState α ε) (h : GoodC s) :
    GoodC (schedFuel fuel s).state ∧
    (∀ e s1, schedFuel fuel s = .raised e s1 →
      (s1.inFlight.length : Int) + 1 ≤ s1.counter) := by
  induction fuel generalizing s with
  | zero =>
    rw [schedFuel_zero]
    exact schedStep_goodC (fun t => .ok true t)
      (fun t ht => ht)
      (fun t e t1 ht heq => by simp at heq)
      (fun t t1 heq => by simp at heq)
      s h
  | succ fuel ih =>
    rw [schedFuel_succ]
    exact schedStep_goodC (schedFuel fuel)
      (fun t ht => (ih t ht).1)
      (fun t e t1 ht heq => (ih t ht).2 e t1 heq)
      (fun t t1 heq => schedFuel_eq_false fuel t t1 heq)
      s h

end Retwist

namespace Retwist

variable {α ε : Type}

theorem removeTask_length_of_found (l : List (Nat × TaskOutcome α ε)) (i : Nat)
    (out : TaskOutcome α ε) (h : findOutcome l i = some out) :
    (removeTask l i).length + 1 = l.length := by
  induction l with
  | nil => simp [findOutcome] at h
  | cons p rest ih =>
    obtain ⟨j, o⟩ := p
    by_cases hj : j = i
    · simp [removeTask, hj]
    · rw [findOutcome, if_neg hj] at h
      rw [removeTask, if_neg hj]
      simp only [List.length_cons]
      rw [ih h]

theorem fireEvent_goodC (s : RunState α ε) (i : Nat) (h : GoodC s) :
    GoodC (fireEvent s i) := by
  obtain ⟨h1, h2, h3, h4⟩ := h
  unfold fireEvent
  cases hf : findOutcome s.inFlight i with
  | none => exact ⟨h1, h2, h3, h4⟩
  | some out =>
    have hnosucc : ∀ rs, s.settled ≠ some (.success rs) := by
      intro rs hrs
      rw [(h3 rs hrs).1] at hf
      simp [findOutcome] at hf
    have hlen := removeTask_length_of_found s.inFlight i out hf
    cases out with
    | ok v =>
      have hpre : PreCb { s with inFlight := removeTask s.inFlight i } := by
        refine ⟨?_, ?_, ?_, h4⟩
        · show ((removeTask s.inFlight i).length : Int) + 1 ≤ s.counter
          omega
        · intro j e hj
          have := h2 j e hj
          show ((removeTask s.inFlight i).length : Int) + 2 ≤ s.counter
          omega
        · intro rs hrs
          exact absurd hrs (hnosucc rs)
      have hgt := goodC_cbEnter _ v i hpre
      show GoodC (handleCbResult (runCbStep (schedFuel _ _)) i)
      refine handleCb_goodC _ i (schedFuel_goodC _ _ hgt).1
        (fun e t1 heq => (schedFuel_goodC _ _ hgt).2 e t1 heq) ?_
      intro t1 heq
      obtain ⟨rfl, hpnil⟩ := schedFuel_eq_false _ _ t1 heq
      exact ⟨fun rs hrs => hnosucc rs hrs, hpnil⟩
    | err e =>
      show GoodC (deferredErrback { s with inFlight := removeTask s.inFlight i } e i)
      by_cases hs : s.settled.isSome
      · refine ⟨?_, ?_, ?_, ?_⟩ <;> simp only [deferredErrback, hs, if_pos]
        · show ((removeTask s.inFlight i).length : Int) ≤ s.counter
          omega
        · intro j e2 hj
          show ((removeTask s.inFlight i).length : Int) + 1 ≤ s.counter
          omega
        · intro rs hrs
          exact absurd hrs (hnosucc rs)
        · exact h4
      · refine ⟨?_, ?_, ?_, ?_⟩ <;>
          simp only [deferredErrback, hs, Bool.false_eq_true, if_false, if_neg]
        · show ((removeTask s.inFlight i).length : Int) ≤ s.counter
          omega
        · intro j e2 hj
          show ((removeTask s.inFlight i).length : Int) + 1 ≤ s.counter
          omega
        · intro rs hrs
          simp at hrs
        · exact h4

theorem initState_goodC (factories : List (TaskSpec α ε)) :
    GoodC (initState factories) :=
  ⟨by simp [initState], fun i e h => by simp [initState] at h,
   fun rs h => by simp [initState] at h, rfl⟩

theorem constructLoop_goodC (k : Nat) (s : RunState α ε) (h : GoodC s) :
    GoodC (stateOf (constructLoop k s)) := by
  induction k generalizing s with
  | zero => exact h
  | succ k ih =>
    show GoodC (stateOf (match schedFuel s.pending.length s with
      | .ok _ s1 => constructLoop k s1
      | .raised e s1 => .error (e, s1)))
    cases hr : schedFuel s.pending.length s with
    | ok b s1 =>
      have := (schedFuel_goodC s.pending.length s h).1
      rw [hr] at this
      exact ih s1 this
    | raised e s1 =>
      have := (schedFuel_goodC s.pending.length s h).1
      rw [hr] at this
      exact this

theorem runEvents_goodC (s : RunState α ε) (events : List Nat) (h : GoodC s) :
    GoodC (runEvents s events) := by
  induction events generalizing s with
  | nil => exact h
  | cons e es ih =>
    show GoodC (runEvents (fireEvent s e) es)
    exact ih _ (fireEvent_goodC s e h)

theorem run_goodC (factories : List (TaskSpec α ε)) (limit : Int)
    (events : List Nat) : GoodC (stateOf (run factories limit events)) := by
  have hc := constructLoop_goodC limit.toNat (initState factories)
    (initState_goodC factories)
  cases hcon : construct factories limit with
  | ok s0 =>
    have h0 : GoodC s0 := by rw [construct] at hcon; rw [hcon] at hc; exact hc
    show GoodC (stateOf ((construct factories limit).map fun s => runEvents s events))
    rw [hcon]
    exact runEvents_goodC s0 events h0
  | error p =>
    show GoodC (stateOf ((construct factories limit).map fun s => runEvents s events))
    rw [hcon]
    rw [construct] at hcon
    rw [hcon] at hc
    exact hc

/-- C8: the overall result settles at most once.  Along any run, twisted's
Deferred.callback is never invoked on an already-settled LimitedDeferredList
(crashed stays false, so no AlreadyCalledError is ever raised), and once the
overall result carries a settled value, delivering any further task
completions or failures leaves that value untouched - nothing is raised or
surfaced a second time even though other tasks keep running. -/
theorem c8_settles_at_most_once (factories : List (TaskSpec α ε)) (limit : Int)
    (events extra : List Nat) (x : Settlement α ε) :
    (stateOf (run factories limit events)).crashed = false ∧
    ((stateOf (run factories limit events)).settled = some x →
      (stateOf (run factories limit (events ++ extra))).settled = some x) := by
  constructor
  · exact (run_goodC factories limit events).2.2.2
  · intro hx
    cases hcon : construct factories limit with
    | ok s0 =>
      have h1 : stateOf (run factories limit events) = runEvents s0 events := by
        rw [run, hcon]
        rfl
      have h2 : stateOf (run factories limit (events ++ extra)) =
          runEvents (runEvents s0 events) extra := by
        rw [run, hcon]
        show runEvents s0 (events ++ extra) = _
        rw [runEvents, runEvents, runEvents, List.foldl_append]
      rw [h2]
      rw [h1] at hx
      exact runEvents_settled_of_some _ extra x hx
    | error p =>
      have h1 : stateOf (run factories limit events) = p.2 := by
        rw [run, hcon]
        rfl
      have h2 : stateOf (run factories limit (events ++ extra)) = p.2 := by
        rw [run, hcon]
        rfl
      rw [h2]
      rw [h1] at hx
      exact hx

theorem c8_settles_at_most_once_witness :
    (stateOf (run exampleFailing 2 [2])).crashed = false ∧
    (stateOf (run exampleFailing 2 ([2] ++ [1]))).settled =
      some (.failure 2 7) :=
  ⟨(c8_settles_at_most_once exampleFailing 2 [2] [1] (.failure 2 7)).1,
   (c8_settles_at_most_once exampleFailing 2 [2] [1] (.failure 2 7)).2 (by decide)⟩

end Retwist

namespace Retwist

variable {α ε : Type}

@[simp]
theorem fireOverallCallback_pending (s : RunState α ε) :
    (fireOverallCallback s).pending = s.pending := by
  unfold fireOverallCallback
  cases s.settled <;> rfl

@[simp]
theorem fireOverallCallback_inFlight (s : RunState α ε) :
    (fireOverallCallback s).inFlight = s.inFlight := by
  unfold fireOverallCallback
  cases s.settled <;> rfl

@[simp]
theorem fireOverallCallback_counter (s : RunState α ε) :
    (fireOverallCallback s).counter = s.counter := by
  unfold fireOverallCallback
  cases s.settled <;> rfl

@[simp]
theorem fireOverallCallback_results (s : RunState α ε) :
    (fireOverallCallback s).results = s.results := by
  unfold fireOverallCallback
  cases s.settled <;> rfl

@[simp]
theorem deferredErrback_pending (s : RunState α ε) (e : ε) (i : Nat) :
    (deferredErrback s e i).pending = s.pending := by
  unfold deferredErrback
  split <;> rfl

@[simp]
theorem deferredErrback_inFlight (s : RunState α ε) (e : ε) (i : Nat) :
    (deferredErrback s e i).inFlight = s.inFlight := by
  unfold deferredErrback
  split <;> rfl

@[simp]
theorem deferredErrback_counter (s : RunState α ε) (e : ε) (i : Nat) :
    (deferredErrback s e i).counter = s.counter := by
  unfold deferredErrback
  split <;> rfl

@[simp]
theorem deferredErrback_results (s : RunState α ε) (e : ε) (i : Nat) :
    (deferredErrback s e i).results = s.results := by
  unfold deferredErrback
  split <;> rfl

@[simp]
theorem deferredErrback_crashed (s : RunState α ε) (e : ε) (i : Nat) :
    (deferredErrback s e i).crashed = s.crashed := by
  unfold deferredErrback
  split <;> rfl

theorem handleCb_runCb_pending (r : SchedResult α ε) (i : Nat) :
    (handleCbResult (runCbStep r) i).pending = r.state.pending := by
  cases r with
  | raised e s2 => simp [runCbStep, handleCbResult]
  | ok b s2 =>
    cases b with
    | true => rfl
    | false =>
      show (handleCbResult (runCbStep (SchedResult.ok false s2)) i).pending = s2.pending
      rw [runCbStep]
      split <;> simp [handleCbResult]

theorem handleCb_runCb_inFlight (r : SchedResult α ε) (i : Nat) :
    (handleCbResult (runCbStep r) i).inFlight = r.state.inFlight := by
  cases r with
  | raised e s2 => simp [runCbStep, handleCbResult]
  | ok b s2 =>
    cases b with
    | true => rfl
    | false =>
      show (handleCbResult (runCbStep (SchedResult.ok false s2)) i).inFlight = s2.inFlight
      rw [runCbStep]
      split <;> simp [handleCbResult]

theorem schedStep_pendIter (recurse : RunState α ε → SchedResult α ε)
    (hrec : ∀ t, ∃ m, (recurse t).state.pending = (List.dropLast)^[m] t.pending)
    (s : RunState α ε) :
    ∃ m, (schedStep recurse s).state.pending = (List.dropLast)^[m] s.pending := by
  cases hp : s.pending.getLast? with
  | none => exact ⟨0, by rw [schedStep_eq_none recurse s hp]; rfl⟩
  | some p =>
    obtain ⟨i, spec⟩ := p
    cases spec with
    | async out =>
      exact ⟨1, by rw [schedStep_eq_async recurse s i out hp]; rfl⟩
    | sync out =>
      cases out with
      | ok v =>
        rw [schedStep_eq_sync_ok recurse s i v hp]
        obtain ⟨m, hm⟩ := hrec (cbEnter
          { s with pending := s.pending.dropLast, counter := s.counter + 1 } v i)
        refine ⟨m + 1, ?_⟩
        rw [SchedResult.state_ok, handleCb_runCb_pending, hm,
          Function.iterate_succ_apply]
        rfl
      | err e =>
        refine ⟨1, ?_⟩
        rw [schedStep_eq_sync_err recurse s i e hp, SchedResult.state_ok,
          deferredErrback_pending]
        rfl
    | raises e =>
      exact ⟨1, by rw [schedStep_eq_raises recurse s i e hp]; rfl⟩

theorem schedFuel_pendIter (fuel : Nat) (s : RunState α ε) :
    ∃ m, (schedFuel fuel s).state.pending = (List.dropLast)^[m] s.pending := by
  induction fuel generalizing s with
  | zero =>
    rw [schedFuel_zero]
    exact schedStep_pendIter (fun t => .ok true t) (fun t => ⟨0, by simp⟩) s
  | succ fuel ih =>
    rw [schedFuel_succ]
    exact schedStep_pendIter _ ih s

theorem fireEvent_pendIter (s : RunState α ε) (i : Nat) :
    ∃ m, (fireEvent s i).pending = (List.dropLast)^[m] s.pending := by
  unfold fireEvent
  cases hf : findOutcome s.inFlight i with
  | none => exact ⟨0, rfl⟩
  | some out =>
    cases out with
    | ok v =>
      obtain ⟨m, hm⟩ := schedFuel_pendIter
        ({ s with inFlight := removeTask s.inFlight i } : RunState α ε).pending.length
        (cbEnter { s with inFlight := removeTask s.inFlight i } v i)
      exact ⟨m, by rw [handleCb_runCb_pending, hm]; rfl⟩
    | err e => exact ⟨0, by simp⟩

theorem dropIter_trans (l1 l2 l3 : List (Nat × TaskSpec α ε))
    (h1 : ∃ m, l2 = (List.dropLast)^[m] l1) (h2 : ∃ m, l3 = (List.dropLast)^[m] l2) :
    ∃ m, l3 = (List.dropLast)^[m] l1 := by
  obtain ⟨m1, hm1⟩ := h1
  obtain ⟨m2, hm2⟩ := h2
  exact ⟨m1 + m2, by rw [hm2, hm1, ← Function.iterate_add_apply, Nat.add_comm]⟩

theorem constructLoop_pendIter (k : Nat) (s : RunState α ε) :
    ∃ m, (stateOf (constructLoop k s)).pending = (List.dropLast)^[m] s.pending := by
  induction k generalizing s with
  | zero => exact ⟨0, rfl⟩
  | succ k ih =>
    show ∃ m, (stateOf (match schedFuel s.pending.length s with
      | .ok _ s1 => constructLoop k s1
      | .raised e s1 => .error (e, s1))).pending = (List.dropLast)^[m] s.pending
    cases hr : schedFuel s.pending.length s with
    | ok b s1 =>
      have h1 := schedFuel_pendIter s.pending.length s
      rw [hr] at h1
      exact dropIter_trans _ _ _ h1 (ih s1)
    | raised e s1 =>
      have h1 := schedFuel_pendIter s.pending.length s
      rw [hr] at h1
      exact h1

theorem runEvents_pendIter (s : RunState α ε) (events : List Nat) :
    ∃ m, (runEvents s events).pending = (List.dropLast)^[m] s.pending := by
  induction events generalizing s with
  | nil => exact ⟨0, rfl⟩
  | cons e es ih =>
    show ∃ m, (runEvents (fireEvent s e) es).pending = (List.dropLast)^[m] s.pending
    exact dropIter_trans _ _ _ (fireEvent_pendIter s e) (ih (fireEvent s e))

theorem run_pendIter (factories : List (TaskSpec α ε)) (limit : Int)
    (events : List Nat) :
    ∃ m, (stateOf (run factories limit events)).pending =
      (List.dropLast)^[m] (initState factories).pending := by
  cases hcon : construct factories limit with
  | ok s0 =>
    have h1 := constructLoop_pendIter limit.toNat (initState factories)
    rw [construct] at hcon
    rw [hcon] at h1
    have h2 : stateOf (run factories limit events) = runEvents s0 events := by
      rw [run, construct, hcon]
      rfl
    rw [h2]
    exact dropIter_trans _ _ _ h1 (runEvents_pendIter s0 events)
  | error p =>
    have h1 := constructLoop_pendIter limit.toNat (initState factories)
    rw [construct] at hcon
    rw [hcon] at h1
    have h2 : stateOf (run factories limit events) = p.2 := by
      rw [run, construct, hcon]
      rfl
    rw [h2]
    exact h1

end Retwist

namespace Retwist

variable {α ε : Type}

theorem enumTasks_length (k : Nat) (l : List (TaskSpec α ε)) :
    (enumTasks k l).length = l.length := by
  induction l generalizing k with
  | nil => rfl
  | cons t ts ih => simp [enumTasks, ih]

theorem enumTasks_append (k : Nat) (l1 l2 : List (TaskSpec α ε)) :
    enumTasks k (l1 ++ l2) = enumTasks k l1 ++ enumTasks (k + l1.length) l2 := by
  induction l1 generalizing k with
  | nil => simp [enumTasks]
  | cons t ts ih =>
    show (k, t) :: enumTasks (k + 1) (ts ++ l2) = _
    rw [ih (k + 1)]
    simp [enumTasks]
    congr 1
    omega

theorem take_dropLast_enum (F : List (TaskSpec α ε)) (k : Nat)
    (hk : k ≤ F.length) :
    (enumTasks 0 (F.take k)).dropLast = enumTasks 0 (F.take (k - 1)) := by
  cases k with
  | zero => simp [enumTasks]
  | succ m =>
    have hm : m < F.length := hk
    have hsome : F[m]? = some F[m] := List.getElem?_eq_getElem hm
    rw [List.take_succ, hsome]
    show (enumTasks 0 (F.take m ++ [F[m]])).dropLast = _
    rw [enumTasks_append]
    have hlen : (F.take m).length = m := by
      rw [List.length_take]
      omega
    rw [hlen, Nat.zero_add]
    show (enumTasks 0 (F.take m) ++ [(m, F[m])]).dropLast = _
    rw [List.dropLast_concat]
    rfl

theorem dropIter_take_enum (F : List (TaskSpec α ε)) (m k : Nat)
    (hk : k ≤ F.length) :
    (List.dropLast)^[m] (enumTasks 0 (F.take k)) = enumTasks 0 (F.take (k - m)) := by
  induction m generalizing k with
  | zero => simp
  | succ m ih =>
    rw [Function.iterate_succ_apply, take_dropLast_enum F k hk,
      ih (k - 1) (by omega)]
    congr 2
    omega

/-- C4 amended: the queue of unscheduled factories is, at every point of every
run, an initial segment factories.take k of the caller's input: scheduling
- for the initial batch and for every refill alike - always pops the factory
with the HIGHEST remaining original index from the back of the deque
(collections.deque.pop() removes from the right), never the lowest from the
front. -/
theorem c4_scheduled_from_back_of_queue (factories : List (TaskSpec α ε))
    (limit : Int) (events : List Nat) :
    ∃ k, k ≤ factories.length ∧
      (stateOf (run factories limit events)).pending =
        enumTasks 0 (factories.take k) := by
  obtain ⟨m, hm⟩ := run_pendIter factories limit events
  have hinit : (initState factories).pending =
      enumTasks 0 (factories.take factories.length) := by
    rw [List.take_length]
    rfl
  refine ⟨factories.length - m, Nat.sub_le _ _, ?_⟩
  rw [hm, hinit, dropIter_take_enum factories m factories.length le_rfl]

end Retwist

namespace Retwist

variable {α ε : Type}

theorem schedStep_inFlight_le (recurse : RunState α ε → SchedResult α ε)
    (hrec : ∀ t, (recurse t).state.inFlight.length ≤ t.inFlight.length + 1)
    (s : RunState α ε) :
    (schedStep recurse s).state.inFlight.length ≤ s.inFlight.length + 1 := by
  cases hp : s.pending.getLast? with
  | none =>
    rw [schedStep_eq_none recurse s hp]
    exact Nat.le_succ _
  | some p =>
    obtain ⟨i, spec⟩ := p
    cases spec with
    | async out =>
      rw [schedStep_eq_async recurse s i out hp]
      exact le_rfl
    | sync out =>
      cases out with
      | ok v =>
        rw [schedStep_eq_sync_ok recurse s i v hp, SchedResult.state_ok,
          handleCb_runCb_inFlight]
        exact hrec _
      | err e =>
        rw [schedStep_eq_sync_err recurse s i e hp, SchedResult.state_ok,
          deferredErrback_inFlight]
        exact Nat.le_succ _
    | raises e =>
      rw [schedStep_eq_raises recurse s i e hp]
      exact Nat.le_succ _

theorem schedFuel_inFlight_le (fuel : Nat) (s : RunState α ε) :
    (schedFuel fuel s).state.inFlight.length ≤ s.inFlight.length + 1 := by
  induction fuel generalizing s with
  | zero =>
    rw [schedFuel_zero]
    exact schedStep_inFlight_le (fun t => .ok true t) (fun t => Nat.le_succ _) s
  | succ fuel ih =>
    rw [schedFuel_succ]
    exact schedStep_inFlight_le (schedFuel fuel) ih s

theorem fireEvent_inFlight_le (s : RunState α ε) (i : Nat) :
    (fireEvent s i).inFlight.length ≤ s.inFlight.length := by
  unfold fireEvent
  cases hf : findOutcome s.inFlight i with
  | none => exact le_rfl
  | some out =>
    have hlen := removeTask_length_of_found s.inFlight i out hf
    cases out with
    | ok v =>
      rw [handleCb_runCb_inFlight]
      have hthis := schedFuel_inFlight_le
        (({ s with inFlight := removeTask s.inFlight i } : RunState α ε)).pending.length
        (cbEnter { s with inFlight := removeTask s.inFlight i } v i)
      have hcb : (cbEnter ({ s with inFlight := removeTask s.inFlight i } :
          RunState α ε) v i).inFlight = removeTask s.inFlight i := rfl
      rw [hcb] at hthis
      omega
    | err e =>
      rw [deferredErrback_inFlight]
      show (removeTask s.inFlight i).length ≤ _
      omega

theorem constructLoop_inFlight_le (k : Nat) (s : RunState α ε) :
    (stateOf (constructLoop k s)).inFlight.length ≤ s.inFlight.length + k := by
  induction k generalizing s with
  | zero => exact le_rfl
  | succ k ih =>
    show (stateOf (match schedFuel s.pending.length s with
      | .ok _ s1 => constructLoop k s1
      | .raised e s1 => .error (e, s1))).inFlight.length ≤ _
    cases hr : schedFuel s.pending.length s with
    | ok b s1 =>
      have h1 := schedFuel_inFlight_le s.pending.length s
      rw [hr] at h1
      simp only [SchedResult.state_ok] at h1
      have h2 := ih s1
      show (stateOf (constructLoop k s1)).inFlight.length ≤ _
      omega
    | raised e s1 =>
      have h1 := schedFuel_inFlight_le s.pending.length s
      rw [hr] at h1
      show s1.inFlight.length ≤ _
      simp only [SchedResult.state_raised] at h1
      omega

theorem runEvents_inFlight_le (s : RunState α ε) (events : List Nat) :
    (runEvents s events).inFlight.length ≤ s.inFlight.length := by
  induction events generalizing s with
  | nil => exact le_rfl
  | cons e es ih =>
    show (runEvents (fireEvent s e) es).inFlight.length ≤ _
    exact le_trans (ih (fireEvent s e)) (fireEvent_inFlight_le s e)

theorem dropIter_length_le (m : Nat) (l : List (Nat × TaskSpec α ε)) :
    ((List.dropLast)^[m] l).length ≤ l.length := by
  induction m generalizing l with
  | zero => simp
  | succ m ih =>
    rw [Function.iterate_succ_apply]
    exact le_trans (ih l.dropLast) (by rw [List.length_dropLast]; omega)

theorem schedFuel_pending_le (fuel : Nat) (s : RunState α ε) :
    (schedFuel fuel s).state.pending.length ≤ s.pending.length := by
  obtain ⟨m, hm⟩ := schedFuel_pendIter fuel s
  rw [hm]
  exact dropIter_length_le m _

theorem schedStep_pending_lt (recurse : RunState α ε → SchedResult α ε)
    (hrec : ∀ t, (recurse t).state.pending.length ≤ t.pending.length)
    (s : RunState α ε) (hne : s.pending ≠ []) :
    (schedStep recurse s).state.pending.length ≤ s.pending.length - 1 := by
  cases hp : s.pending.getLast? with
  | none => exact absurd (List.getLast?_eq_none_iff.mp hp) hne
  | some p =>
    obtain ⟨i, spec⟩ := p
    cases spec with
    | async out =>
      rw [schedStep_eq_async recurse s i out hp]
      show s.pending.dropLast.length ≤ _
      rw [List.length_dropLast]
    | sync out =>
      cases out with
      | ok v =>
        rw [schedStep_eq_sync_ok recurse s i v hp, SchedResult.state_ok,
          handleCb_runCb_pending]
        have hthis := hrec (cbEnter
          { s with pending := s.pending.dropLast, counter := s.counter + 1 } v i)
        have hcb :
            (cbEnter ({ s with pending := s.pending.dropLast, counter := s.counter + 1 } : RunState α ε) v i).pending =
              s.pending.dropLast := rfl
        rw [hcb] at hthis
        have hdl : s.pending.dropLast.length = s.pending.length - 1 :=
          List.length_dropLast _
        omega
      | err e =>
        rw [schedStep_eq_sync_err recurse s i e hp, SchedResult.state_ok,
          deferredErrback_pending]
        show s.pending.dropLast.length ≤ _
        rw [List.length_dropLast]
    | raises e =>
      rw [schedStep_eq_raises recurse s i e hp]
      show s.pending.dropLast.length ≤ _
      rw [List.length_dropLast]

theorem schedFuel_pending_lt (fuel : Nat) (s : RunState α ε)
    (hne : s.pending ≠ []) :
    (schedFuel fuel s).state.pending.length ≤ s.pending.length - 1 := by
  cases fuel with
  | zero =>
    rw [schedFuel_zero]
    exact schedStep_pending_lt (fun t => .ok true t) (fun t => le_rfl) s hne
  | succ fuel =>
    rw [schedFuel_succ]
    exact schedStep_pending_lt (schedFuel fuel)
      (fun t => schedFuel_pending_le fuel t) s hne

theorem constructLoop_pending_nil (k : Nat) (s : RunState α ε)
    (h : s.pending.length ≤ k) (s2 : RunState α ε)
    (hc : constructLoop k s = .ok s2) : s2.pending = [] := by
  induction k generalizing s with
  | zero =>
    injection hc with hc2
    rw [← hc2]
    exact List.length_eq_zero.mp (Nat.le_zero.mp h)
  | succ k ih =>
    rw [constructLoop] at hc
    cases hr : schedFuel s.pending.length s with
    | ok b s1 =>
      rw [hr] at hc
      by_cases hemp : s.pending = []
      · have := schedFuel_of_pending_nil s.pending.length s hemp
        rw [this] at hr
        injection hr with _ hr2
        rw [← hr2] at hc
        exact ih s (by rw [hemp]; simp) hc
      · have hlt := schedFuel_pending_lt s.pending.length s hemp
        rw [hr] at hlt
        have hne0 : s.pending.length ≠ 0 := fun h0 =>
          hemp (List.length_eq_zero.mp h0)
        exact ih s1 (by simp only [SchedResult.state_ok] at hlt; omega) hc
    | raised e s1 =>
      rw [hr] at hc
      simp at hc

/-- C2: during any run with limit at least 1, the number of tasks in flight
never exceeds the limit - at every observable point, i.e. after the
constructor and after each delivered completion - and when the input count
is smaller than the limit, the constructor already empties the factory
queue, starting every task immediately. -/
theorem c2_at_most_limit_in_flight (factories : List (TaskSpec α ε))
    (limit : Int) (events : List Nat) (s0 : RunState α ε)
    (hl : 1 ≤ limit) (hc : construct factories limit = .ok s0) :
    ((runEvents s0 events).inFlight.length : Int) ≤ limit ∧
    ((factories.length : Int) < limit → s0.pending = []) := by
  constructor
  · have h1 := constructLoop_inFlight_le limit.toNat (initState factories)
    rw [construct] at hc
    rw [hc] at h1
    have hb : stateOf (Except.ok s0 : Except (ε × RunState α ε) (RunState α ε)) = s0 :=
      rfl
    rw [hb] at h1
    have h2 := runEvents_inFlight_le s0 events
    have h3 : (initState factories).inFlight.length = 0 := rfl
    have h4 : (limit.toNat : Int) = limit := Int.toNat_of_nonneg (by omega)
    omega
  · intro hsmall
    rw [construct] at hc
    refine constructLoop_pending_nil limit.toNat (initState factories) ?_ s0 hc
    have h5 : (initState factories).pending.length = factories.length := by
      show (enumTasks 0 factories).length = _
      exact enumTasks_length 0 factories
    omega

theorem c2_at_most_limit_in_flight_witness :
    ((runEvents (stateOf (construct
      ([TaskSpec.async (.ok 1), TaskSpec.async (.ok 2)] : List (TaskSpec Nat Nat))
      3)) [2]).inFlight.length : Int) ≤ 3 ∧
    (((([TaskSpec.async (.ok 1), TaskSpec.async (.ok 2)] :
        List (TaskSpec Nat Nat)).length : Int) < 3) →
      (stateOf (construct
        ([TaskSpec.async (.ok 1), TaskSpec.async (.ok 2)] : List (TaskSpec Nat Nat))
        3)).pending = []) :=
  c2_at_most_limit_in_flight [TaskSpec.async (.ok 1), TaskSpec.async (.ok 2)] 3 [2]
    (stateOf (construct [TaskSpec.async (.ok 1), TaskSpec.async (.ok 2)] 3))
    (by decide) rfl

end Retwist

namespace Retwist

variable {α ε : Type}

theorem schedFuel_eq_raises (fuel : Nat) (s : RunState α ε) (i : Nat) (e : ε)
    (h : s.pending.getLast? = some (i, .raises e)) :
    schedFuel fuel s = .raised e
      { s with pending := s.pending.dropLast, counter := s.counter + 1 } := by
  cases fuel with
  | zero => rw [schedFuel_zero]; exact schedStep_eq_raises _ s i e h
  | succ fuel => rw [schedFuel_succ]; exact schedStep_eq_raises _ s i e h

theorem schedFuel_eq_async (fuel : Nat) (s : RunState α ε) (i : Nat)
    (out : TaskOutcome α ε) (h : s.pending.getLast? = some (i, .async out)) :
    schedFuel fuel s = .ok true
      { s with pending := s.pending.dropLast, counter := s.counter + 1,
               inFlight := (i, out) :: s.inFlight } := by
  cases fuel with
  | zero => rw [schedFuel_zero]; exact schedStep_eq_async _ s i out h
  | succ fuel => rw [schedFuel_succ]; exact schedStep_eq_async _ s i out h

theorem enumTasks_mem_async (Bouts : List (TaskOutcome α ε)) (k : Nat)
    (p : Nat × TaskSpec α ε) (hp : p ∈ enumTasks k (Bouts.map TaskSpec.async)) :
    ∃ o, p.2 = TaskSpec.async o := by
  induction Bouts generalizing k with
  | nil => simp [enumTasks] at hp
  | cons b bs ih =>
    rw [List.map_cons] at hp
    rw [enumTasks] at hp
    rcases List.mem_cons.mp hp with h1 | h2
    · exact ⟨b, by rw [h1]⟩
    · exact ih (k + 1) h2

theorem constructLoop_raise (j : Nat) (Q P : List (Nat × TaskSpec α ε))
    (i : Nat) (e : ε) (s : RunState α ε)
    (hQ : ∀ p ∈ Q, ∃ o, p.2 = TaskSpec.async o)
    (hpend : s.pending = P ++ (i, TaskSpec.raises e) :: Q)
    (hj : Q.length < j) :
    ∃ s2, constructLoop j s = .error (e, s2) ∧ s2.settled = s.settled := by
  induction j generalizing Q P s with
  | zero => omega
  | succ j2 ih =>
    rcases Q.eq_nil_or_concat with hQnil | ⟨L, b, hQL⟩
    · subst hQnil
      have hlast : s.pending.getLast? = some (i, TaskSpec.raises e) := by
        rw [hpend]
        exact List.getLast?_concat P
      rw [constructLoop, schedFuel_eq_raises s.pending.length s i e hlast]
      exact ⟨_, rfl, rfl⟩
    · rw [List.concat_eq_append] at hQL
      obtain ⟨m, spec⟩ := b
      obtain ⟨o, ho⟩ := hQ (m, spec) (by rw [hQL]; simp)
      simp only at ho
      subst ho
      subst hQL
      have hform : s.pending =
          (P ++ (i, TaskSpec.raises e) :: L) ++ [(m, TaskSpec.async o)] := by
        rw [hpend]
        simp
      have hlast : s.pending.getLast? = some (m, TaskSpec.async o) := by
        rw [hform]
        exact List.getLast?_concat _
      rw [constructLoop, schedFuel_eq_async s.pending.length s m o hlast]
      have hdrop : s.pending.dropLast = P ++ (i, TaskSpec.raises e) :: L := by
        rw [hform]
        exact List.dropLast_concat
      obtain ⟨s2, hs2, hset⟩ := ih L P
        ({ s with pending := s.pending.dropLast, counter := s.counter + 1,
                  inFlight := (m, o) :: s.inFlight })
        (fun p hp => hQ p (by simp [hp]))
        hdrop
        (by simp at hj; omega)
      exact ⟨s2, hs2, hset⟩

/-- C10: if a factory invoked directly by the constructor's initial scheduling
loop raises an exception instead of returning a Deferred (here: the factory
at position A.length, reached because only the Bouts.length later factories
are popped before it and Bouts.length < max_concurrent), the exception
propagates synchronously out of __init__, and the overall result is left
unsettled - in particular no FirstError for that factory's index (or any
other) is ever produced. -/
theorem c10_factory_raise_escapes_init (A : List (TaskSpec α ε)) (e : ε)
    (Bouts : List (TaskOutcome α ε)) (limit : Int)
    (h : (Bouts.length : Int) < limit) :
    raisedOf (construct (A ++ TaskSpec.raises e :: Bouts.map TaskSpec.async)
      limit) = some e ∧
    (stateOf (construct (A ++ TaskSpec.raises e :: Bouts.map TaskSpec.async)
      limit)).settled = none := by
  have hpend : (initState (A ++ TaskSpec.raises e :: Bouts.map TaskSpec.async)).pending =
      enumTasks 0 A ++ (A.length, TaskSpec.raises e) ::
        enumTasks (A.length + 1) (Bouts.map TaskSpec.async) := by
    show enumTasks 0 (A ++ TaskSpec.raises e :: Bouts.map TaskSpec.async) = _
    rw [enumTasks_append, Nat.zero_add]
    rfl
  have hlen : (enumTasks (A.length + 1) (Bouts.map TaskSpec.async)).length =
      Bouts.length := by
    rw [enumTasks_length, List.length_map]
  obtain ⟨s2, hs2, hset⟩ := constructLoop_raise limit.toNat
    (enumTasks (A.length + 1) (Bouts.map TaskSpec.async)) (enumTasks 0 A)
    A.length e (initState (A ++ TaskSpec.raises e :: Bouts.map TaskSpec.async))
    (fun p hp => enumTasks_mem_async Bouts (A.length + 1) p hp)
    hpend
    (by omega)
  unfold construct
  rw [hs2]
  exact ⟨rfl, hset.trans rfl⟩

theorem c10_factory_raise_escapes_init_witness :
    raisedOf (construct ([TaskSpec.async (.ok 1)] ++ TaskSpec.raises 9 ::
      ([TaskOutcome.ok 2] : List (TaskOutcome Nat Nat)).map TaskSpec.async) 2) =
      some 9 ∧
    (stateOf (construct ([TaskSpec.async (.ok 1)] ++ TaskSpec.raises 9 ::
      ([TaskOutcome.ok 2] : List (TaskOutcome Nat Nat)).map TaskSpec.async)
      2)).settled = none :=
  c10_factory_raise_escapes_init [TaskSpec.async (.ok 1)] 9 [TaskOutcome.ok 2] 2
    (by decide)

end Retwist

namespace Retwist

variable {α ε : Type}

theorem take_getLast?_enum (F : List (TaskSpec α ε)) (k : Nat)
    (t : TaskSpec α ε) (h1 : 1 ≤ k) (ht : F[k - 1]? = some t) :
    (enumTasks 0 (F.take k)).getLast? = some (k - 1, t) := by
  obtain ⟨m, rfl⟩ : ∃ m, k = m + 1 := ⟨k - 1, by omega⟩
  simp only [Nat.add_sub_cancel] at ht ⊢
  have hm : m < F.length := by
    by_contra hge
    rw [List.getElem?_eq_none (by omega)] at ht
    simp at ht
  rw [List.take_succ, ht]
  show (enumTasks 0 (F.take m ++ [t])).getLast? = _
  rw [enumTasks_append]
  have hlen : (F.take m).length = m := by
    rw [List.length_take]
    omega
  rw [hlen, Nat.zero_add]
  exact List.getLast?_concat _

theorem set_results_ext (vals : List α) (r : List (Option α)) (k : Nat) (v : α)
    (hv : vals[k]? = some v)
    (hr : ∀ j, r[j]? = vals[j]?.map fun w => if k + 1 ≤ j then some w else none) :
    ∀ j, (r.set k (some v))[j]? =
      vals[j]?.map fun w => if k ≤ j then some w else none := by
  intro j
  rw [List.getElem?_set]
  by_cases hj : k = j
  · subst hj
    have hlt : k < r.length := by
      have h2 := hr k
      rw [hv] at h2
      by_contra hge
      rw [List.getElem?_eq_none (by omega)] at h2
      simp at h2
    rw [hv]
    simp [hlt]
  · rw [if_neg hj, hr j]
    cases hvj : vals[j]? with
    | none => rfl
    | some w =>
      show some (if k + 1 ≤ j then some w else none) =
        some (if k ≤ j then some w else none)
      by_cases hkj : k ≤ j
      · rw [if_pos (by omega : k + 1 ≤ j), if_pos hkj]
      · rw [if_neg (by omega : ¬ k + 1 ≤ j), if_neg hkj]

theorem results_all_set (vals : List α) (r : List (Option α))
    (hr : ∀ j, r[j]? = vals[j]?.map fun w => if 0 ≤ j then some w else none) :
    r = vals.map some := by
  apply List.ext_getElem?
  intro j
  rw [hr j, List.getElem?_map]
  cases vals[j]? <;> simp

theorem sync_chain (vals : List α) (k : Nat) :
    ∀ (fuel : Nat) (r : List (Option α)) (s : RunState α ε),
    1 ≤ k → k ≤ vals.length → k ≤ fuel →
    s = { pending := enumTasks 0 ((syncOk vals).take k), results := r,
          counter := 0, settled := none, inFlight := [], crashed := false } →
    (∀ j, r[j]? = vals[j]?.map fun w => if k ≤ j then some w else none) →
    schedFuel fuel s = .ok true
      { pending := [], results := vals.map some, counter := 0,
        settled := some (.success (vals.map some)), inFlight := [],
        crashed := false } := by
  induction k with
  | zero => intro fuel r s hk1; omega
  | succ m ih =>
    intro fuel r s hk1 hk2 hfuel hs hr
    subst hs
    have hm : m < vals.length := by omega
    have hv : vals[m]? = some vals[m] := List.getElem?_eq_getElem hm
    have hsync : (syncOk vals : List (TaskSpec α ε))[m]? =
        some (.sync (.ok vals[m])) := by
      show ((vals.map fun v => TaskSpec.sync (.ok v)) : List (TaskSpec α ε))[m]? = _
      rw [List.getElem?_map, hv]
      rfl
    have hlast := take_getLast?_enum (syncOk vals) (m + 1) (.sync (.ok vals[m]))
      (by omega) (by simpa using hsync)
    simp only [Nat.add_sub_cancel] at hlast
    cases fuel with
    | zero => omega
    | succ f =>
      rw [schedFuel_succ, schedStep_eq_sync_ok (schedFuel f) _ m vals[m] hlast]
      have hslen : (syncOk vals : List (TaskSpec α ε)).length = vals.length := by
        show ((vals.map fun v => TaskSpec.sync (.ok v)) : List (TaskSpec α ε)).length = _
        rw [List.length_map]
      have hdrop : (enumTasks 0 ((syncOk vals : List (TaskSpec α ε)).take (m + 1))).dropLast =
          enumTasks 0 ((syncOk vals : List (TaskSpec α ε)).take m) := by
        have h9 := take_dropLast_enum (syncOk vals : List (TaskSpec α ε)) (m + 1)
          (by omega)
        simpa using h9
      have hcb : cbEnter ({ pending := (enumTasks 0 ((syncOk vals).take (m + 1))).dropLast, results := r, counter := (0 : Int) + 1, settled := none, inFlight := [], crashed := false } : RunState α ε) vals[m] m =
          { pending := enumTasks 0 ((syncOk vals).take m),
            results := r.set m (some vals[m]), counter := 0, settled := none,
            inFlight := [], crashed := false } := by
        simp only [cbEnter, hdrop]
        norm_num
      rw [show (cbEnter ({ pending := (enumTasks 0 ((syncOk vals).take (m + 1))).dropLast, results := r, counter := (0 : Int) + 1, settled := none, inFlight := [], crashed := false } : RunState α ε) vals[m] m) = _ from hcb]
      by_cases hm0 : m = 0
      · subst hm0
        rw [schedFuel_of_pending_nil f _ rfl]
        have hres : r.set 0 (some vals[0]) = vals.map some :=
          results_all_set vals _ (set_results_ext vals r 0 vals[0] hv
            (fun j => by simpa using hr j))
        rw [hres]
        rfl
      · have hstep := ih f (r.set m (some vals[m]))
          ({ pending := enumTasks 0 ((syncOk vals).take m),
             results := r.set m (some vals[m]), counter := 0, settled := none,
             inFlight := [], crashed := false } : RunState α ε)
          (by omega) (by omega) (by omega) rfl
          (set_results_ext vals r m vals[m] hv (fun j => hr j))
        rw [hstep]
        rfl

end Retwist

namespace Retwist

variable {α ε : Type}

/-- C9: a run whose tasks all settle synchronously - each factory returns a
Deferred that has already fired before control returns to the scheduler,
the worst case for reentrancy - corrupts nothing: for any nonempty input and
any limit at least 1, the constructor itself drives every task to
completion, the overall result settles exactly once with the values in
input order, the in-flight counter returns to zero (no double count), every
factory is consumed exactly once (no double refill), and no
AlreadyCalledError occurs. -/
theorem c9_synchronous_tasks_safe (vals : List α) (limit : Int)
    (h1 : 1 ≤ limit) (h2 : vals ≠ []) :
    (construct (syncOk vals : List (TaskSpec α ε)) limit).map
      (fun s => (s.settled, s.counter, s.inFlight, s.pending, s.crashed)) =
      .ok (some (.success (vals.map some)), 0, [], [], false) := by
  have hn : 1 ≤ vals.length := List.length_pos.mpr h2
  have hslen : (syncOk vals : List (TaskSpec α ε)).length = vals.length := by
    show ((vals.map fun v => TaskSpec.sync (.ok v)) : List (TaskSpec α ε)).length = _
    rw [List.length_map]
  have htake : (syncOk vals : List (TaskSpec α ε)).take vals.length = syncOk vals := by
    rw [← hslen]
    exact List.take_length _
  cases htn : limit.toNat with
  | zero => omega
  | succ t =>
    unfold construct
    rw [htn, constructLoop]
    have hchain := sync_chain vals vals.length
      ((initState (syncOk vals : List (TaskSpec α ε))).pending.length)
      ((syncOk vals : List (TaskSpec α ε)).map fun _ => none)
      (initState (syncOk vals : List (TaskSpec α ε)))
      hn le_rfl
      (by show vals.length ≤ (enumTasks 0 (syncOk vals : List (TaskSpec α ε))).length
          rw [enumTasks_length, hslen])
      (by rw [htake]; rfl)
      (by intro j
          rw [List.getElem?_map]
          by_cases hj : j < vals.length
          · have hvj : vals[j]? = some vals[j] := List.getElem?_eq_getElem hj
            have hsj : (syncOk vals : List (TaskSpec α ε))[j]? =
                some (.sync (.ok vals[j])) := by
              show ((vals.map fun v => TaskSpec.sync (.ok v)) :
                List (TaskSpec α ε))[j]? = _
              rw [List.getElem?_map, hvj]
              rfl
            rw [hsj, hvj]
            show some none = some (if vals.length ≤ j then some vals[j] else none)
            rw [if_neg (by omega)]
          · rw [List.getElem?_eq_none (by omega : vals.length ≤ j),
              List.getElem?_eq_none (by rw [hslen]; omega)]
            rfl)
    rw [hchain]
    show Except.map _ (constructLoop t ({ pending := [], results := vals.map some, counter := 0, settled := some (.success (vals.map some)), inFlight := [], crashed := false } : RunState α ε)) = _
    rw [constructLoop_of_pending_nil ({ pending := [], results := vals.map some, counter := 0, settled := some (.success (vals.map some)), inFlight := [], crashed := false } : RunState α ε) rfl t]
    rfl

theorem c9_synchronous_tasks_safe_witness :
    (construct (syncOk [1, 2] : List (TaskSpec Nat Nat)) 10).map
      (fun s => (s.settled, s.counter, s.inFlight, s.pending, s.crashed)) =
      .ok (some (.success ([1, 2].map some)), 0, [], [], false) :=
  c9_synchronous_tasks_safe [1, 2] 10 (by decide) (by decide)

end Retwist

namespace Retwist

variable {α ε : Type}

theorem findOutcome_mem (l : List (Nat × TaskOutcome α ε)) (i : Nat)
    (out : TaskOutcome α ε) (h : findOutcome l i = some out) : (i, out) ∈ l := by
  induction l with
  | nil => simp [findOutcome] at h
  | cons p rest ih =>
    obtain ⟨j, o⟩ := p
    by_cases hj : j = i
    · subst hj
      rw [findOutcome, if_pos rfl] at h
      injection h with h2
      subst h2
      exact List.mem_cons_self _ _
    · rw [findOutcome, if_neg hj] at h
      exact List.mem_cons_of_mem _ (ih h)

theorem removeTask_sublist (l : List (Nat × TaskOutcome α ε)) (i : Nat) :
    (removeTask l i).Sublist l := by
  induction l with
  | nil => exact List.Sublist.refl _
  | cons p rest ih =>
    obtain ⟨j, o⟩ := p
    by_cases hj : j = i
    · rw [removeTask, if_pos hj]
      exact List.sublist_cons_self _ _
    · rw [removeTask, if_neg hj]
      exact List.Sublist.cons₂ _ ih

theorem removeTask_mem (l : List (Nat × TaskOutcome α ε)) (i : Nat)
    (p : Nat × TaskOutcome α ε) (h : p ∈ removeTask l i) : p ∈ l :=
  (removeTask_sublist l i).mem h

theorem removeTask_nodup_idx (l : List (Nat × TaskOutcome α ε)) (i : Nat)
    (h : (l.map Prod.fst).Nodup) : ((removeTask l i).map Prod.fst).Nodup :=
  h.sublist ((removeTask_sublist l i).map Prod.fst)

theorem removeTask_not_mem_idx (l : List (Nat × TaskOutcome α ε)) (i : Nat)
    (out : TaskOutcome α ε) (hn : (l.map Prod.fst).Nodup)
    (h : findOutcome l i = some out) :
    ¬ i ∈ (removeTask l i).map Prod.fst := by
  induction l with
  | nil => simp [removeTask]
  | cons p rest ih =>
    obtain ⟨j, o⟩ := p
    rw [List.map_cons, List.nodup_cons] at hn
    by_cases hj : j = i
    · subst hj
      rw [removeTask, if_pos rfl]
      exact hn.1
    · rw [findOutcome, if_neg hj] at h
      rw [removeTask, if_neg hj, List.map_cons, List.mem_cons]
      rintro (hji | hmem)
      · exact hj hji.symm
      · exact ih hn.2 h hmem

theorem removeTask_idx_iff (l : List (Nat × TaskOutcome α ε)) (i j : Nat)
    (hj : j ≠ i) : (j ∈ (removeTask l i).map Prod.fst) ↔ (j ∈ l.map Prod.fst) := by
  induction l with
  | nil => simp [removeTask]
  | cons p rest ih =>
    obtain ⟨m, o⟩ := p
    by_cases hm : m = i
    · subst hm
      rw [removeTask, if_pos rfl, List.map_cons, List.mem_cons]
      constructor
      · exact Or.inr
      · rintro (hjm | hmem)
        · exact absurd hjm hj
        · exact hmem
    · rw [removeTask, if_neg hm, List.map_cons, List.map_cons, List.mem_cons,
        List.mem_cons, ih]

theorem asyncOk_length (vals : List α) :
    (asyncOk vals : List (TaskSpec α ε)).length = vals.length := by
  show ((vals.map fun v => TaskSpec.async (.ok v)) : List (TaskSpec α ε)).length = _
  rw [List.length_map]

theorem asyncOk_getElem (vals : List α) (j : Nat) :
    (asyncOk vals : List (TaskSpec α ε))[j]? =
      vals[j]?.map fun v => TaskSpec.async (.ok v) := by
  show ((vals.map fun v => TaskSpec.async (.ok v)) : List (TaskSpec α ε))[j]? = _
  rw [List.getElem?_map]

theorem res_formula_congr_at (vals : List α) (r : List (Option α))
    (P Q : Nat → Prop) [DecidablePred P] [DecidablePred Q] (j : Nat)
    (hiff : vals[j]?.isSome → (P j ↔ Q j))
    (hrj : r[j]? = vals[j]?.map fun w => if P j then some w else none) :
    r[j]? = vals[j]?.map fun w => if Q j then some w else none := by
  rw [hrj]
  cases hv : vals[j]? with
  | none => rfl
  | some w =>
    show some (if P j then some w else none) = some (if Q j then some w else none)
    have hps := hiff (by rw [hv]; rfl)
    by_cases hp : P j
    · rw [if_pos hp, if_pos (hps.mp hp)]
    · rw [if_neg hp, if_neg (fun hq => hp (hps.mpr hq))]

theorem res_formula_congr (vals : List α) (r : List (Option α))
    (P Q : Nat → Prop) [DecidablePred P] [DecidablePred Q]
    (hiff : ∀ j, vals[j]?.isSome → (P j ↔ Q j))
    (hr : ∀ j, r[j]? = vals[j]?.map fun w => if P j then some w else none) :
    ∀ j, r[j]? = vals[j]?.map fun w => if Q j then some w else none :=
  fun j => res_formula_congr_at vals r P Q j (hiff j) (hr j)

theorem set_results_formula (vals : List α) (r : List (Option α)) (i : Nat)
    (v : α) (P Q : Nat → Prop) [DecidablePred P] [DecidablePred Q]
    (hv : vals[i]? = some v)
    (hr : ∀ j, r[j]? = vals[j]?.map fun w => if P j then some w else none)
    (hiff : ∀ j, j ≠ i → vals[j]?.isSome → (P j ↔ Q j))
    (hQi : Q i) :
    ∀ j, (r.set i (some v))[j]? =
      vals[j]?.map fun w => if Q j then some w else none := by
  intro j
  rw [List.getElem?_set]
  by_cases hj : i = j
  · subst hj
    have hlt : i < r.length := by
      have h2 := hr i
      rw [hv] at h2
      by_contra hge
      rw [List.getElem?_eq_none (by omega)] at h2
      simp at h2
    rw [if_pos rfl, if_pos hlt, hv]
    show some (some v) = some (if Q i then some v else none)
    rw [if_pos hQi]
  · rw [if_neg hj]
    exact res_formula_congr_at vals r P Q j
      (hiff j (fun hji => hj hji.symm)) (hr j)

theorem invOk_sched (vals : List α) (s : RunState α ε) (fuel : Nat)
    (hI : InvOk vals s) :
    ∃ b s2, schedFuel fuel s = .ok b s2 ∧ InvOk vals s2 ∧
      s2.settled = s.settled ∧ (s.pending ≠ [] → b = true ∧ s2.inFlight ≠ []) := by
  by_cases hne : s.pending = []
  · exact ⟨false, s, schedFuel_of_pending_nil fuel s hne, hI, rfl,
      fun h => absurd hne h⟩
  · obtain ⟨k, hk, hpe⟩ := hI.hpend
    have hk1 : 1 ≤ k := by
      have hk0 : k ≠ 0 := fun h0 => hne (by rw [hpe, h0]; rfl)
      omega
    have hplen : s.pending.length = k := by
      rw [hpe, enumTasks_length, List.length_take, asyncOk_length]
      omega
    have hklt : k - 1 < vals.length := by omega
    obtain ⟨v, hv⟩ : ∃ v, vals[k - 1]? = some v :=
      ⟨vals[k - 1], List.getElem?_eq_getElem hklt⟩
    have hasy : (asyncOk vals : List (TaskSpec α ε))[k - 1]? =
        some (.async (.ok v)) := by
      rw [asyncOk_getElem, hv]
      rfl
    have hlast : s.pending.getLast? = some (k - 1, .async (.ok v)) := by
      rw [hpe]
      exact take_getLast?_enum (asyncOk vals) k _ hk1 hasy
    have heq := schedFuel_eq_async fuel s (k - 1) (.ok v) hlast
    have hidxge : ∀ j ∈ s.inFlight.map Prod.fst, k ≤ j := by
      intro j hj
      obtain ⟨p, hp, hfst⟩ := List.mem_map.mp hj
      have := (hI.hflight p hp).1
      omega
    have hdlen : s.pending.dropLast.length = k - 1 := by
      rw [List.length_dropLast, hplen]
    refine ⟨true, _, heq, ⟨?_, ?_, ?_, ?_, ?_, ?_, ?_⟩, rfl,
      fun _ => ⟨rfl, List.cons_ne_nil _ _⟩⟩
    · refine ⟨k - 1, by omega, ?_⟩
      show s.pending.dropLast = _
      rw [hpe, take_dropLast_enum (asyncOk vals) k (by rw [asyncOk_length]; omega)]
    · intro p hp
      rcases List.mem_cons.mp hp with hp1 | hp2
      · subst hp1
        refine ⟨?_, by rw [hv]; rfl⟩
        show s.pending.dropLast.length ≤ k - 1
        omega
      · have hold := hI.hflight p hp2
        refine ⟨?_, hold.2⟩
        show s.pending.dropLast.length ≤ p.1
        have := hold.1
        omega
    · refine List.nodup_cons.mpr ⟨?_, hI.hnodup⟩
      intro hmem
      have := hidxge (k - 1) hmem
      omega
    · show s.counter + 1 = (((k - 1, TaskOutcome.ok v) :: s.inFlight).length : Int)
      rw [List.length_cons, hI.hcounter]
      push_cast
      ring
    · intro i
      refine res_formula_congr_at vals s.results
        (fun i => s.pending.length ≤ i ∧ ¬ i ∈ s.inFlight.map Prod.fst)
        (fun i => s.pending.dropLast.length ≤ i ∧
          ¬ i ∈ ((k - 1, TaskOutcome.ok v) :: s.inFlight).map Prod.fst)
        i ?_ (hI.hres i)
      intro hs
      have hin : i < vals.length := by
        by_contra hge
        rw [List.getElem?_eq_none (by omega)] at hs
        simp at hs
      rw [hplen, hdlen]
      constructor
      · rintro ⟨hki, hnotin⟩
        refine ⟨by omega, ?_⟩
        rw [List.map_cons, List.mem_cons]
        rintro (hik | hmem)
        · omega
        · exact hnotin hmem
      · rintro ⟨hki, hnotin⟩
        rw [List.map_cons, List.mem_cons] at hnotin
        have hik : i ≠ k - 1 := fun h => hnotin (Or.inl h)
        exact ⟨by omega, fun hmem => hnotin (Or.inr hmem)⟩
    · show s.settled = _
      rw [hI.hsettle]
      rw [if_neg (by rintro ⟨h1, h2, h3⟩; omega),
        if_neg (by rintro ⟨h1, h2, h3⟩; simp at h2)]
    · exact hI.hcrash

theorem initState_invOk (vals : List α) :
    InvOk vals (initState (asyncOk vals : List (TaskSpec α ε))) := by
  have htake : (asyncOk vals : List (TaskSpec α ε)).take vals.length = asyncOk vals := by
    rw [← asyncOk_length (ε := ε) vals]
    exact List.take_length _
  have hplen : (initState (asyncOk vals : List (TaskSpec α ε))).pending.length =
      vals.length := by
    show (enumTasks 0 (asyncOk vals : List (TaskSpec α ε))).length = _
    rw [enumTasks_length, asyncOk_length]
  refine ⟨⟨vals.length, le_rfl, ?_⟩, ?_, ?_, ?_, ?_, ?_, rfl⟩
  · show enumTasks 0 (asyncOk vals : List (TaskSpec α ε)) = _
    rw [htake]
  · intro p hp
    simp [initState] at hp
  · show (([] : List (Nat × TaskOutcome α ε)).map Prod.fst).Nodup
    simp
  · show (0 : Int) = (([] : List (Nat × TaskOutcome α ε)).length : Int)
    rfl
  · intro i
    show ((asyncOk vals : List (TaskSpec α ε)).map fun _ => (none : Option α))[i]? = _
    rw [List.getElem?_map, asyncOk_getElem]
    by_cases hi : i < vals.length
    · rw [List.getElem?_eq_getElem hi]
      show some none = some (if _ ∧ _ then some vals[i] else none)
      rw [if_neg ?_]
      rintro ⟨h1, h2⟩
      rw [hplen] at h1
      omega
    · rw [List.getElem?_eq_none (by omega)]
      rfl
  · show none = _
    rw [if_neg ?_]
    rintro ⟨h1, h2, h3⟩
    rw [hplen] at h1
    omega

theorem constructLoop_invOk (vals : List α) (k : Nat) (s : RunState α ε)
    (hI : InvOk vals s) :
    ∃ s2, constructLoop k s = .ok s2 ∧ InvOk vals s2 := by
  induction k generalizing s with
  | zero => exact ⟨s, rfl, hI⟩
  | succ k ih =>
    obtain ⟨b, s1, heq, hI1, hset, hb⟩ := invOk_sched vals s s.pending.length hI
    obtain ⟨s2, heq2, hI2⟩ := ih s1 hI1
    refine ⟨s2, ?_, hI2⟩
    rw [constructLoop, heq]
    exact heq2

theorem fireOverall_of_none (s : RunState α ε) (h : s.settled = none) :
    fireOverallCallback s = { s with settled := some (.success s.results) } := by
  unfold fireOverallCallback
  rw [h]

theorem fireEvent_invOk (vals : List α) (s : RunState α ε) (i : Nat)
    (hI : InvOk vals s) : InvOk vals (fireEvent s i) := by
  unfold fireEvent
  cases hf : findOutcome s.inFlight i with
  | none => exact hI
  | some out =>
    have hmem := findOutcome_mem s.inFlight i out hf
    obtain ⟨hile, hout⟩ := hI.hflight (i, out) hmem
    obtain ⟨v, hv, hov⟩ : ∃ v, vals[i]? = some v ∧ out = .ok v := by
      cases hvi : vals[i]? with
      | none => rw [hvi] at hout; simp at hout
      | some w =>
        rw [hvi] at hout
        refine ⟨w, rfl, ?_⟩
        injection hout with h2
        exact h2.symm
    subst hov
    have hlen := removeTask_length_of_found s.inFlight i (.ok v) hf
    have hnotin := removeTask_not_mem_idx s.inFlight i (.ok v) hI.hnodup hf
    have hnodup1 := removeTask_nodup_idx s.inFlight i hI.hnodup
    have hinne : s.inFlight.length ≠ 0 := by
      intro h0
      rw [List.length_eq_zero.mp h0] at hmem
      simp at hmem
    have hsnone : s.settled = none := by
      rw [hI.hsettle, if_neg]
      rintro ⟨_, h2, _⟩
      exact hinne h2
    have hivn : i < vals.length := by
      by_contra hge
      rw [List.getElem?_eq_none (by omega)] at hv
      simp at hv
    have hTcounter : s.counter - 1 = (((removeTask s.inFlight i)).length : Int) := by
      rw [hI.hcounter]
      omega
    have hTres := set_results_formula vals s.results i v
      (fun j => s.pending.length ≤ j ∧ ¬ j ∈ s.inFlight.map Prod.fst)
      (fun j => s.pending.length ≤ j ∧ ¬ j ∈ (removeTask s.inFlight i).map Prod.fst)
      hv hI.hres
      (fun j hj _ => and_congr_right fun _ =>
        (not_congr (removeTask_idx_iff s.inFlight i j hj)).symm)
      ⟨hile, hnotin⟩
    have hTres2 : ∀ j, (s.results.set i (some v))[j]? = vals[j]?.map fun w =>
        if s.pending.length ≤ j ∧ ¬ j ∈ List.map Prod.fst (removeTask s.inFlight i)
        then some w else none := hTres
    show InvOk vals (handleCbResult (runCbStep (schedFuel (({ s with inFlight := removeTask s.inFlight i } : RunState α ε)).pending.length (cbEnter ({ s with inFlight := removeTask s.inFlight i } : RunState α ε) v i))) i)
    by_cases hpe0 : s.pending = []
    · rw [schedFuel_of_pending_nil _ _ (show (cbEnter ({ s with inFlight := removeTask s.inFlight i } : RunState α ε) v i).pending = [] from hpe0)]
      by_cases hr0 : removeTask s.inFlight i = []
      · have hc0 : (cbEnter ({ s with inFlight := removeTask s.inFlight i } : RunState α ε) v i).counter = 0 := by
          show s.counter - 1 = 0
          rw [hTcounter, hr0]
          rfl
        rw [runCbStep, if_pos hc0]
        show InvOk vals (fireOverallCallback _)
        rw [fireOverall_of_none _ (show (cbEnter ({ s with inFlight := removeTask s.inFlight i } : RunState α ε) v i).settled = none from hsnone)]
        have hall : s.results.set i (some v) = vals.map some := by
          apply List.ext_getElem?
          intro j
          rw [hTres2 j, List.getElem?_map]
          cases hvj : vals[j]? with
          | none => rfl
          | some w =>
            have hcond : s.pending.length ≤ j ∧
                ¬ j ∈ List.map Prod.fst (removeTask s.inFlight i) :=
              ⟨by rw [hpe0]; exact Nat.zero_le j, by rw [hr0]; simp⟩
            show some (if s.pending.length ≤ j ∧
                ¬ j ∈ List.map Prod.fst (removeTask s.inFlight i)
              then some w else none) = some (some w)
            rw [if_pos hcond]
        refine ⟨⟨0, by omega, ?_⟩, ?_, ?_, ?_, ?_, ?_, ?_⟩
        · show s.pending = _
          rw [hpe0]
          rfl
        · intro p hp
          have hp2 : p ∈ removeTask s.inFlight i := hp
          rw [hr0] at hp2
          simp at hp2
        · exact hnodup1
        · exact hTcounter
        · exact fun j => hTres2 j
        · show some (Settlement.success (s.results.set i (some v))) = _
          rw [hall, if_pos ⟨by show s.pending.length = 0; rw [hpe0]; rfl,
            by show (removeTask s.inFlight i).length = 0; rw [hr0]; rfl,
            by omega⟩]
        · exact hI.hcrash
      · have hcne : ¬ ((cbEnter ({ s with inFlight := removeTask s.inFlight i } : RunState α ε) v i).counter = 0) := by
          show ¬ (s.counter - 1 = 0)
          rw [hTcounter]
          have : (removeTask s.inFlight i).length ≠ 0 :=
            fun h0 => hr0 (List.length_eq_zero.mp h0)
          omega
        rw [runCbStep, if_neg hcne]
        refine ⟨⟨0, by omega, ?_⟩, ?_, ?_, ?_, ?_, ?_, ?_⟩
        · show s.pending = _
          rw [hpe0]
          rfl
        · intro p hp
          have hp2 : p ∈ removeTask s.inFlight i := hp
          have hold := hI.hflight p (removeTask_mem _ _ _ hp2)
          exact ⟨hold.1, hold.2⟩
        · exact hnodup1
        · exact hTcounter
        · exact fun j => hTres2 j
        · show s.settled = _
          rw [hsnone, if_neg]
          rintro ⟨_, h2, _⟩
          exact hr0 (List.length_eq_zero.mp h2)
        · exact hI.hcrash
    · have hIT : InvOk vals (cbEnter ({ s with inFlight := removeTask s.inFlight i } : RunState α ε) v i) := by
        refine ⟨hI.hpend, ?_, ?_, ?_, ?_, ?_, ?_⟩
        · intro p hp
          have hp2 : p ∈ removeTask s.inFlight i := hp
          have hold := hI.hflight p (removeTask_mem _ _ _ hp2)
          exact ⟨hold.1, hold.2⟩
        · exact hnodup1
        · exact hTcounter
        · exact fun j => hTres2 j
        · show s.settled = _
          rw [hsnone, if_neg]
          rintro ⟨h1, _, _⟩
          exact hpe0 (List.length_eq_zero.mp h1)
        · exact hI.hcrash
      obtain ⟨b, t2, heq, hI2, hset2, hb⟩ := invOk_sched vals
        (cbEnter ({ s with inFlight := removeTask s.inFlight i } : RunState α ε) v i)
        (({ s with inFlight := removeTask s.inFlight i } : RunState α ε)).pending.length
        hIT
      obtain ⟨hbt, _⟩ := hb hpe0
      subst hbt
      rw [heq]
      exact hI2

theorem runEvents_invOk (vals : List α) (s : RunState α ε) (events : List Nat)
    (hI : InvOk vals s) : InvOk vals (runEvents s events) := by
  induction events generalizing s with
  | nil => exact hI
  | cons e es ih =>
    show InvOk vals (runEvents (fireEvent s e) es)
    exact ih _ (fireEvent_invOk vals s e hI)

/-- C1 counterexample for the empty-sequence instance: with no factories at
all, every one of the zero tasks has trivially resolved (nothing pending,
nothing in flight), yet the overall result never resolves - it stays
unsettled instead of carrying the promised empty results list.  The claim
therefore fails as stated for the empty input; see also the C3 analysis. -/
theorem c1_empty_input_never_resolves :
    (stateOf (run ([] : List (TaskSpec Nat Nat)) 1 [])).inFlight = [] ∧
    (stateOf (run ([] : List (TaskSpec Nat Nat)) 1 [])).pending = [] ∧
    (stateOf (run ([] : List (TaskSpec Nat Nat)) 1 [])).settled = none :=
  ⟨rfl, rfl, rfl⟩

/-- C1 amended: for every NONEMPTY sequence of task factories and every limit
at least 1, if every task eventually resolves successfully (formally: after
the delivered completion events nothing is in flight and nothing is left
unscheduled), the LimitedDeferredList resolves with a results list of the
same length as the input whose element at position j is the value produced
by the j-th input factory, regardless of the order in which the individual
tasks complete (events is an arbitrary completion order). -/
theorem c1_ordered_results (vals : List α) (limit : Int) (events : List Nat)
    (s0 : RunState α ε)
    (h1 : 1 ≤ limit) (h2 : vals ≠ [])
    (hc : construct (asyncOk vals) limit = .ok s0)
    (hdone : (runEvents s0 events).inFlight = [])
    (hpend : (runEvents s0 events).pending = []) :
    (runEvents s0 events).settled = some (.success (vals.map some)) ∧
    (vals.map some).length = vals.length := by
  have hI0 : InvOk vals s0 := by
    obtain ⟨s2, heq, hI2⟩ := constructLoop_invOk vals limit.toNat
      (initState (asyncOk vals)) (initState_invOk vals)
    rw [construct] at hc
    rw [heq] at hc
    injection hc with h3
    rw [← h3]
    exact hI2
  have hIfin := runEvents_invOk vals s0 events hI0
  constructor
  · rw [hIfin.hsettle, if_pos ⟨by rw [hpend]; rfl, by rw [hdone]; rfl,
      fun h0 => h2 (List.length_eq_zero.mp h0)⟩]
  · rw [List.length_map]

theorem c1_ordered_results_witness :
    (runEvents (stateOf (construct (asyncOk [10, 20] : List (TaskSpec Nat Nat)) 1))
      [1, 0]).settled = some (.success ([10, 20].map some)) ∧
    (([10, 20] : List Nat).map some).length = ([10, 20] : List Nat).length :=
  c1_ordered_results [10, 20] 1 [1, 0]
    (stateOf (construct (asyncOk [10, 20] : List (TaskSpec Nat Nat)) 1))
    (by decide) (by decide) rfl (by decide) (by decide)

end Retwist
